import Mathlib

/-!
Verification of the tlapack core: the scaled sum-of-squares accumulator
`lassq` (Blue's algorithm, lassq.hpp), the Hermitian norm engine `lanhe`
(lanhe.hpp), the legacy view constructors and `transpose` (legacyArray
wrappers), and the legacy `lascl` argument checks (slate_api lascl.hpp).

Two scalar models are used, mirroring the C++ template over the scalar type:

* an exact-arithmetic model over an arbitrary linear ordered field `R`
  (the square-root trait of the scalar type is passed as a function
  parameter, exactly as the code obtains `blas::sqrt` from the trait
  layer).  In this model `isnan` is identically false, so the NaN quick
  return of the source is omitted; everything else is translated line by
  line.

* a NaN-extended model `Fl := Option ℚ` (`none` plays the role of NaN),
  with IEEE-like comparison semantics (every comparison with NaN is
  false) and NaN-propagating arithmetic, used for the NaN-propagation
  and traversal-order claims.
-/

namespace Tlapack

/-- The per-scalar-type constants used by `lassq` and the Frobenius branch of
`lanhe`: the two Blue thresholds, the two Blue scaling factors, and the
`safe_max` bound used by the analytic doubling step.  In the source these come
from the numeric-trait layer (`blas::blue_min` etc.); here they are a record
parameter. -/
structure BlueC (R : Type) where
  tsml : R
  tbig : R
  ssml : R
  sbig : R
  safeMax : R

section ExactModel

variable {R : Type} [LinearOrderedField R] {T : Type}

/-- Entry normalization of `lassq` (lassq.hpp lines 146-150):
`if (sumsq == 0) scl = 1; if (scl == 0) { scl = 1; sumsq = 0; }`. -/
def normState (scl sumsq : R) : R × R :=
  let scl1 := if sumsq = 0 then 1 else scl
  if scl1 = 0 then (1, 0) else (scl1, sumsq)

/-- The element loop of `lassq` (lassq.hpp lines 167-176): classify each
magnitude `ax = absF x[i]` against the thresholds and accumulate into the
three accumulators `(asml, amed, abig)`.  A small value is accumulated only
while `abig == 0`, exactly as in the source. -/
def lassqLoop (c : BlueC R) (absF : T → R) : List T → R × R × R → R × R × R
  | [], acc => acc
  | t :: ts, (asml, amed, abig) =>
    let ax := absF t
    if c.tbig < ax then
      lassqLoop c absF ts (asml, amed, abig + (ax * c.sbig) * (ax * c.sbig))
    else if ax < c.tsml then
      if abig = 0 then
        lassqLoop c absF ts (asml + (ax * c.ssml) * (ax * c.ssml), amed, abig)
      else
        lassqLoop c absF ts (asml, amed, abig)
    else
      lassqLoop c absF ts (asml, amed + ax * ax, abig)

/-- Folding the incoming state into the accumulators (lassq.hpp lines
179-187): if `sumsq > 0`, classify `ax = scl * sqrt sumsq` and add the
correspondingly rescaled `sumsq` to one accumulator. -/
def foldState (c : BlueC R) (sqrt : R → R) (scl sumsq : R)
    (acc : R × R × R) : R × R × R :=
  let (asml, amed, abig) := acc
  if 0 < sumsq then
    let ax := scl * sqrt sumsq
    if c.tbig < ax then
      (asml, amed, abig + ((scl * c.sbig) * (scl * c.sbig)) * sumsq)
    else if ax < c.tsml then
      if abig = 0 then
        (asml + ((scl * c.ssml) * (scl * c.ssml)) * sumsq, amed, abig)
      else
        (asml, amed, abig)
    else
      (asml, amed + (scl * scl) * sumsq, abig)
  else
    (asml, amed, abig)

/-- The merge step of `lassq` (lassq.hpp lines 192-227).  In the exact model
`isnan` is identically false, so the `|| isnan(amed)` disjuncts of the source
reduce to `amed > 0`. -/
def mergeState (c : BlueC R) (sqrt : R → R) (acc : R × R × R) : R × R :=
  let (asml, amed, abig) := acc
  if 0 < abig then
    (1 / c.sbig, if 0 < amed then abig + (amed * c.sbig) * c.sbig else abig)
  else if 0 < asml then
    if 0 < amed then
      let amed' := sqrt amed
      let asml' := sqrt asml / c.ssml
      let ymin := if amed' < asml' then amed' else asml'
      let ymax := if amed' < asml' then asml' else amed'
      (1, (ymax * ymax) * (1 + (ymin / ymax) * (ymin / ymax)))
    else
      (1 / c.ssml, asml)
  else
    (1, amed)

/-- Exact-arithmetic model of `lassq` (lassq.hpp lines 120-230): entry
normalization, quick return on an empty vector, the element loop, the fold of
the incoming state, and the merge.  The NaN quick return of the source is
vacuous in this model. -/
def lassq (c : BlueC R) (sqrt : R → R) (absF : T → R) (x : List T)
    (scl sumsq : R) : R × R :=
  let st := normState scl sumsq
  if x.length = 0 then st
  else mergeState c sqrt
    (foldState c sqrt st.1 st.2 (lassqLoop c absF x (0, 0, 0)))

/-- Which triangle of the Hermitian matrix is stored. -/
inductive Uplo
  | upper
  | lower
deriving DecidableEq

/-- The analytic doubling of the off-diagonal sum in the Frobenius branch of
`lanhe` (lanhe.hpp lines 140-143): double `ssq` if it is below `safe_max`,
otherwise multiply `scale` by `sqrt 2`. -/
def doubleStep (c : BlueC R) (sqrt : R → R) (st : R × R) : R × R :=
  if st.2 < c.safeMax then (st.1, st.2 * 2) else (st.1 * sqrt 2, st.2)

/-- Exact-arithmetic model of the Frobenius branch of `lanhe` (lanhe.hpp
lines 61-66 and 124-152): quick return for `n = 0`; one `lassq` pass per
column of the stored strict triangle starting from `(scale, ssq) = (0, 1)`;
the analytic doubling; one further `lassq` pass over the diagonal with the
real-part magnitude function `absR`; finally `scale * sqrt ssq`. -/
def lanheFrob (c : BlueC R) (sqrt : R → R) (absF absR : T → R) (uplo : Uplo)
    (n : ℕ) (A : ℕ → ℕ → T) : R :=
  if n = 0 then 0
  else
    let st :=
      match uplo with
      | .upper =>
        (List.range' 1 (n - 1)).foldl
          (fun st j =>
            lassq c sqrt absF ((List.range j).map fun i => A i j) st.1 st.2)
          (0, 1)
      | .lower =>
        (List.range (n - 1)).foldl
          (fun st j =>
            lassq c sqrt absF
              ((List.range' (j + 1) (n - (j + 1))).map fun i => A i j)
              st.1 st.2)
          (0, 1)
    let st2 := doubleStep c sqrt st
    let st3 := lassq c sqrt absR ((List.range n).map fun j => A j j) st2.1 st2.2
    st3.1 * sqrt st3.2

end ExactModel

/-! ### The NaN-extended model -/

/-- NaN-extended rationals: `none` models NaN.  Infinities and rounding are
not modelled; the claims proved over this model only concern NaN propagation
and traversal order. -/
abbrev Fl : Type := Option ℚ

/-- The literal `0.0`. -/
def fzero : Fl := some 0

/-- The literal `1.0`. -/
def fone : Fl := some 1

/-- NaN-propagating addition. -/
def Fl.add : Fl → Fl → Fl
  | some a, some b => some (a + b)
  | _, _ => none

/-- NaN-propagating multiplication. -/
def Fl.mul : Fl → Fl → Fl
  | some a, some b => some (a * b)
  | _, _ => none

/-- NaN-propagating division.  (Division by zero yields rational 0 rather
than an infinity; no claim proved here exercises that case.) -/
def Fl.div : Fl → Fl → Fl
  | some a, some b => some (a / b)
  | _, _ => none

/-- IEEE-style `<`: any comparison involving NaN is false. -/
def Fl.blt : Fl → Fl → Bool
  | some a, some b => decide (a < b)
  | _, _ => false

/-- IEEE-style `==`: any comparison involving NaN is false. -/
def Fl.beq : Fl → Fl → Bool
  | some a, some b => decide (a = b)
  | _, _ => false

/-- The `isnan` predicate of the trait layer. -/
def Fl.isnan (x : Fl) : Bool := x.isNone

section NanModel

variable {T : Type}

/-- Entry normalization of `lassq`, NaN-extended model (lassq.hpp lines
146-150). -/
def normStateF (scl sumsq : Fl) : Fl × Fl :=
  let scl1 := if Fl.beq sumsq fzero then fone else scl
  if Fl.beq scl1 fzero then (fone, fzero) else (scl1, sumsq)

/-- The element loop of `lassq`, NaN-extended model (lassq.hpp lines
167-176). -/
def lassqLoopF (c : BlueC Fl) (absF : T → Fl) :
    List T → Fl × Fl × Fl → Fl × Fl × Fl
  | [], acc => acc
  | t :: ts, (asml, amed, abig) =>
    let ax := absF t
    if Fl.blt c.tbig ax then
      lassqLoopF c absF ts
        (asml, amed, Fl.add abig (Fl.mul (Fl.mul ax c.sbig) (Fl.mul ax c.sbig)))
    else if Fl.blt ax c.tsml then
      if Fl.beq abig fzero then
        lassqLoopF c absF ts
          (Fl.add asml (Fl.mul (Fl.mul ax c.ssml) (Fl.mul ax c.ssml)), amed, abig)
      else
        lassqLoopF c absF ts (asml, amed, abig)
    else
      lassqLoopF c absF ts (asml, Fl.add amed (Fl.mul ax ax), abig)

/-- Folding the incoming state, NaN-extended model (lassq.hpp lines
179-187). -/
def foldStateF (c : BlueC Fl) (sqrtF : Fl → Fl) (scl sumsq : Fl)
    (acc : Fl × Fl × Fl) : Fl × Fl × Fl :=
  let (asml, amed, abig) := acc
  if Fl.blt fzero sumsq then
    let ax := Fl.mul scl (sqrtF sumsq)
    if Fl.blt c.tbig ax then
      (asml, amed,
        Fl.add abig (Fl.mul (Fl.mul (Fl.mul scl c.sbig) (Fl.mul scl c.sbig)) sumsq))
    else if Fl.blt ax c.tsml then
      if Fl.beq abig fzero then
        (Fl.add asml (Fl.mul (Fl.mul (Fl.mul scl c.ssml) (Fl.mul scl c.ssml)) sumsq),
          amed, abig)
      else
        (asml, amed, abig)
    else
      (asml, Fl.add amed (Fl.mul (Fl.mul scl scl) sumsq), abig)
  else
    (asml, amed, abig)

/-- The merge step, NaN-extended model (lassq.hpp lines 192-227), with the
`|| isnan(amed)` disjuncts of the source kept. -/
def mergeStateF (c : BlueC Fl) (sqrtF : Fl → Fl) (acc : Fl × Fl × Fl) :
    Fl × Fl :=
  let (asml, amed, abig) := acc
  if Fl.blt fzero abig then
    (Fl.div fone c.sbig,
      if Fl.blt fzero amed || amed.isnan then
        Fl.add abig (Fl.mul (Fl.mul amed c.sbig) c.sbig)
      else abig)
  else if Fl.blt fzero asml then
    if Fl.blt fzero amed || amed.isnan then
      let amed' := sqrtF amed
      let asml' := Fl.div (sqrtF asml) c.ssml
      let ymin := if Fl.blt amed' asml' then amed' else asml'
      let ymax := if Fl.blt amed' asml' then asml' else amed'
      (fone, Fl.mul (Fl.mul ymax ymax)
        (Fl.add fone (Fl.mul (Fl.div ymin ymax) (Fl.div ymin ymax))))
    else
      (Fl.div fone c.ssml, asml)
  else
    (fone, amed)

/-- NaN-extended model of `lassq` (lassq.hpp lines 120-230), including the
NaN quick return of lines 143-144. -/
def lassqF (c : BlueC Fl) (sqrtF : Fl → Fl) (absF : T → Fl) (x : List T)
    (scl sumsq : Fl) : Fl × Fl :=
  if scl.isnan || sumsq.isnan then (scl, sumsq)
  else
    let st := normStateF scl sumsq
    if x.length = 0 then st
    else mergeStateF c sqrtF
      (foldStateF c sqrtF st.1 st.2 (lassqLoopF c absF x (fzero, fzero, fzero)))

/-- The max-accumulation cell of `lanhe`: `if (temp > norm) norm = temp;
else if (isnan(temp)) return temp;` folded over a list of magnitudes
(lanhe.hpp lines 74-121 and 205-231). -/
def maxScanF : Fl → List Fl → Fl
  | norm, [] => norm
  | norm, t :: ts =>
    if Fl.blt norm t then maxScanF t ts
    else if t.isnan then t
    else maxScanF norm ts

/-- The magnitudes visited by the max-norm branch of `lanhe`, in traversal
order: for the upper triangle, column by column, the strict column above the
diagonal by full magnitude followed by the diagonal entry by real-part
magnitude; for the lower triangle, the diagonal entry first and then the
strict column below it (lanhe.hpp lines 73-122). -/
def scanList (uplo : Uplo) (n : ℕ) (A : ℕ → ℕ → T) (absF absR : T → Fl) :
    List Fl :=
  match uplo with
  | .upper =>
    ((List.range n).map fun j =>
      ((List.range j).map fun i => absF (A i j)) ++ [absR (A j j)]).flatten
  | .lower =>
    ((List.range n).map fun j =>
      absR (A j j) :: ((List.range' (j + 1) (n - (j + 1))).map
        fun i => absF (A i j))).flatten

/-- NaN-extended model of the max-norm branch of `lanhe` (lanhe.hpp lines
61-66 and 71-123): quick return for `n = 0`, then the max scan over the
stored triangle in traversal order. -/
def lanheMax (uplo : Uplo) (n : ℕ) (A : ℕ → ℕ → T) (absF absR : T → Fl) : Fl :=
  if n = 0 then fzero else maxScanF fzero (scanList uplo n A absF absR)

/-- The partial column sum `sum` accumulated by the upper-triangle workspace
loop of `lanhe` before the diagonal entry is added (lanhe.hpp lines
197-202). -/
def colSumU (A : ℕ → ℕ → T) (absF : T → Fl) (j : ℕ) : Fl :=
  ((List.range j).map fun i => absF (A i j)).foldl Fl.add fzero

/-- One step of the upper-triangle workspace loop of `lanhe` (lanhe.hpp lines
195-204): column `j` adds `|A(i,j)|` to `work[i]` for every `i < j` and
assigns `work[j] = sum + |Re A(j,j)|`.  The updates of one step touch each
slot at most once, so they are modelled as one simultaneous update. -/
def workStepU (A : ℕ → ℕ → T) (absF absR : T → Fl) (w : ℕ → Fl) (j : ℕ) :
    ℕ → Fl :=
  fun i =>
    if i < j then Fl.add (w i) (absF (A i j))
    else if i = j then Fl.add (colSumU A absF j) (absR (A j j))
    else w i

/-- The scratch buffer after the whole upper-triangle traversal, starting
from the explicit zero initialization of `work[0..n-1]` (lanhe.hpp lines
191-192). -/
def workU (A : ℕ → ℕ → T) (absF absR : T → Fl) (n : ℕ) (w0 : ℕ → Fl) :
    ℕ → Fl :=
  (List.range n).foldl (workStepU A absF absR) fun i => if i < n then fzero else w0 i

/-- One simultaneous-update step of the lower-triangle workspace loop: column
`j` adds `|A(i,j)|` to `work[i]` for every `j < i < n` (lanhe.hpp lines
220-224). -/
def lowerStepW (A : ℕ → ℕ → T) (absF : T → Fl) (w : ℕ → Fl) (j n : ℕ) :
    ℕ → Fl :=
  fun i => if j < i ∧ i < n then Fl.add (w i) (absF (A i j)) else w i

/-- The row/column sum formed at column `j` of the lower-triangle workspace
loop: `sum = work[j] + |Re A(j,j)|` followed by the strict column below the
diagonal (lanhe.hpp lines 219-223). -/
def lowerSum (A : ℕ → ℕ → T) (absF absR : T → Fl) (w : ℕ → Fl) (j n : ℕ) :
    Fl :=
  ((List.range' (j + 1) (n - (j + 1))).map fun i => absF (A i j)).foldl
    Fl.add (Fl.add (w j) (absR (A j j)))

/-- The lower-triangle workspace loop of `lanhe` (lanhe.hpp lines 217-231):
for each column `j` form `sum`, update the scratch buffer, and fold `sum`
into the running maximum with the NaN short-circuit. -/
def lowerScan (A : ℕ → ℕ → T) (absF absR : T → Fl) (n : ℕ) :
    List ℕ → (ℕ → Fl) → Fl → Fl
  | [], _, norm => norm
  | j :: js, w, norm =>
    let s := lowerSum A absF absR w j n
    let w' := lowerStepW A absF w j n
    if Fl.blt norm s then lowerScan A absF absR n js w' s
    else if s.isnan then s
    else lowerScan A absF absR n js w' norm

/-- The two norm types served by the workspace variant of `lanhe` after its
quick redirect (lanhe.hpp lines 157-235). -/
inductive OneInf
  | one
  | inf
deriving DecidableEq

/-- NaN-extended model of the workspace variant of `lanhe` for the one and
infinity norms (lanhe.hpp lines 169-235).  After the quick redirect the
`one_norm_t` and `inf_norm_t` instantiations execute the identical body, so
the norm-type argument is not used by the computation. -/
def lanheWork (_nt : OneInf) (uplo : Uplo) (n : ℕ) (A : ℕ → ℕ → T)
    (absF absR : T → Fl) (w0 : ℕ → Fl) : Fl :=
  if n = 0 then fzero
  else
    match uplo with
    | .upper => maxScanF fzero ((List.range n).map (workU A absF absR n w0))
    | .lower =>
      lowerScan A absF absR n (List.range n)
        (fun i => if i < n then fzero else w0 i) fzero

end NanModel

/-! ### The legacy view constructors and transpose -/

/-- The storage layout tag of `legacyMatrix` (a template parameter in the
source). -/
inductive Layout
  | colMajor
  | rowMajor
deriving DecidableEq

/-- Modelled from the spec: the `legacyMatrix` descriptor itself
(legacy_api/legacyArray.hpp, not under src/): a non-owning view with extents
`m × n`, a buffer pointer (modelled as an abstract address), and a leading
dimension.  The field order `{m, n, ptr, ldim}` is the aggregate order used
by the constructors in src.  Element access is not defined in src either; the
spec (section 4.1) gives the offset formulas `i + j*ld` (column-major) and
`j + i*ld` (row-major), embedded below in `elemAddr`. -/
structure legacyMatrix (T : Type) (layout : Layout) where
  m : ℕ
  n : ℕ
  ptr : ℕ
  ldim : ℕ
deriving DecidableEq

/-- Modelled from the spec: the buffer address of logical element `(i, j)`
of a view, per the offset formulas of spec section 4.1. -/
def legacyMatrix.elemAddr {T : Type} {l : Layout} (A : legacyMatrix T l)
    (i j : ℕ) : ℕ :=
  match l with
  | .colMajor => A.ptr + (i + j * A.ldim)
  | .rowMajor => A.ptr + (j + i * A.ldim)

/-- `internal::transpose` on a column-major view (legacyArray wrapper, src
part_000 lines 107-112): the row-major view `{A.n, A.m, A.ptr, A.ldim}`. -/
def transposeCM {T : Type} (A : legacyMatrix T .colMajor) :
    legacyMatrix T .rowMajor :=
  ⟨A.n, A.m, A.ptr, A.ldim⟩

/-- `internal::transpose` on a row-major view (src part_000 lines 114-120):
the column-major view `{A.n, A.m, A.ptr, A.ldim}`. -/
def transposeRM {T : Type} (A : legacyMatrix T .rowMajor) :
    legacyMatrix T .colMajor :=
  ⟨A.n, A.m, A.ptr, A.ldim⟩

/-! ### The legacy `lascl` wrapper -/

/-- The matrix-type selector of the legacy `lascl` (lapack::MatrixType). -/
inductive MatrixType
  | general
  | lower
  | upper
  | hessenberg
  | lowerBand
  | upperBand
  | band
deriving DecidableEq

/-- The dispatch target reached by the legacy `lascl` after its argument
checks (slate_api/lapack/lascl.hpp lines 107-120). -/
inductive LasclBranch
  | generalMat
  | lowerTri
  | upperTri
  | hessenbergMat
  | lowerBandMat
  | upperBandMat
  | bandMat
deriving DecidableEq

/-- Modelled from the spec: `lapack_error_if(cond, -i)` (lapack/utils.hpp,
not under src/) makes the enclosing function return the error code `-i` when
`cond` holds, per the documented contract `@return -i if the ith argument is
invalid`.  `lasclRun` embeds the check sequence of the legacy `lascl`
(slate_api/lapack/lascl.hpp lines 69-122) in source order and returns the
resulting error code together with the dispatch branch reached (`none` when
no dispatch to an actual scaling routine happens). -/
def lasclRun (mt : MatrixType) (kl ku m n lda : ℤ) :
    ℤ × Option LasclBranch :=
  if ¬(mt = .general ∨ mt = .lower ∨ mt = .upper ∨ mt = .hessenberg) then
    (-1, none)
  else if (mt = .lowerBand ∨ mt = .upperBand ∨ mt = .band) ∧
      (kl < 0 ∨ kl > max (m - 1) 0) then
    (-2, none)
  else if (mt = .lowerBand ∨ mt = .upperBand ∨ mt = .band) ∧
      (ku < 0 ∨ ku > max (n - 1) 0) then
    (-3, none)
  else if (mt = .lowerBand ∨ mt = .upperBand) ∧ kl ≠ ku then
    (-3, none)
  else if m < 0 then
    (-6, none)
  else if lda < m ∧ (mt = .general ∨ mt = .lower ∨ mt = .upper ∨
      mt = .hessenberg) then
    (-9, none)
  else if mt = .lowerBand ∧ lda < kl + 1 then
    (-9, none)
  else if mt = .upperBand ∧ lda < ku + 1 then
    (-9, none)
  else if mt = .band ∧ lda < 2 * kl + ku + 1 then
    (-9, none)
  else if mt = .general then (0, some .generalMat)
  else if mt = .lower then (0, some .lowerTri)
  else if mt = .upper then (0, some .upperTri)
  else if mt = .hessenberg then (0, some .hessenbergMat)
  else if mt = .lowerBand then (0, some .lowerBandMat)
  else if mt = .upperBand then (0, some .upperBandMat)
  else if mt = .band then (0, some .bandMat)
  else (0, none)

/-! ### Claim C9: transpose is an involutive relabeling -/

/-- C9: transposing a column-major view yields a row-major view (and vice
versa) with rows and columns swapped but the identical buffer pointer and
leading dimension, and transposing twice yields a view with the same extents,
layout, buffer and leading dimension — hence the same element mapping — as
the original; moreover the transposed view maps logical `(i,j)` to the
original's `(j,i)` address. -/
theorem transpose_involution :
    ∀ (T : Type) (A : legacyMatrix T .colMajor) (B : legacyMatrix T .rowMajor),
      (transposeCM A).m = A.n ∧ (transposeCM A).n = A.m ∧
      (transposeCM A).ptr = A.ptr ∧ (transposeCM A).ldim = A.ldim ∧
      (transposeRM B).m = B.n ∧ (transposeRM B).n = B.m ∧
      (transposeRM B).ptr = B.ptr ∧ (transposeRM B).ldim = B.ldim ∧
      transposeRM (transposeCM A) = A ∧ transposeCM (transposeRM B) = B ∧
      (∀ i j, (transposeCM A).elemAddr i j = A.elemAddr j i) ∧
      (∀ i j, (transposeRM B).elemAddr i j = B.elemAddr j i) := by
  intro T A B
  exact ⟨rfl, rfl, rfl, rfl, rfl, rfl, rfl, rfl, rfl, rfl,
    fun i j => rfl, fun i j => rfl⟩

/-! ### Claim C10: the legacy `lascl` rejects every banded matrix type -/

/-- C10: for every call of the legacy `lascl` with a banded matrix type the
first argument check signals invalid argument `-1` (only General, Lower,
Upper and Hessenberg are admitted), so the banded dispatch branches are never
reached and no scaling happens for any banded type. -/
theorem lascl_banded_rejected :
    ∀ (kl ku m n lda : ℤ),
      lasclRun .lowerBand kl ku m n lda = (-1, none) ∧
      lasclRun .upperBand kl ku m n lda = (-1, none) ∧
      lasclRun .band kl ku m n lda = (-1, none) := by
  intro kl ku m n lda
  refine ⟨?_, ?_, ?_⟩ <;> simp [lasclRun]

/-! ### Claim C8: degenerate-size quick return -/

/-- C8: for every norm type (max and Frobenius via the direct variant, one
and infinity via the workspace variant) and both triangle sides, the norm
engine on an `n = 0` view returns 0 immediately; the result does not depend
on the matrix entries or on the scratch buffer, which is expressed by
quantifying over them. -/
theorem lanhe_quick_return_zero :
    ∀ (R : Type) [LinearOrderedField R] (T : Type) (c : BlueC R)
      (sqrt : R → R) (absF absR : T → R) (uplo : Uplo) (A : ℕ → ℕ → T)
      (S : Type) (Bq : ℕ → ℕ → S) (absFq absRq : S → Fl) (w0 : ℕ → Fl)
      (nt : OneInf),
      lanheFrob c sqrt absF absR uplo 0 A = 0 ∧
      lanheMax uplo 0 Bq absFq absRq = fzero ∧
      lanheWork nt uplo 0 Bq absFq absRq w0 = fzero := by
  intro R _ T c sqrt absF absR uplo A S Bq absFq absRq w0 nt
  exact ⟨by simp [lanheFrob], by simp [lanheMax], by simp [lanheWork]⟩

/-! ### Claim C5: max norm returns the first NaN and short-circuits -/

/-- The NaN-free max-accumulation cell: `fmax x y` is `y` when `y > x` and
`x` otherwise; used to express the result of the scan when no NaN occurs. -/
def fmax (x y : Fl) : Fl := if Fl.blt x y then y else x

/-- Any comparison of the max scan against NaN is false, so reaching a NaN
cell returns it at once, never reading the rest of the list. -/
theorem maxScanF_first_nan (l2 : List Fl) :
    ∀ (l1 : List Fl) (norm : Fl), (∀ u ∈ l1, u.isnan = false) →
      maxScanF norm (l1 ++ none :: l2) = none := by
  intro l1
  induction l1 with
  | nil =>
    intro norm _
    cases norm <;> simp [maxScanF, Fl.blt, Fl.isnan]
  | cons t ts ih =>
    intro norm h
    have ht : Fl.isnan t = false := h t (by simp)
    have hts : ∀ u ∈ ts, Fl.isnan u = false := fun u hu => h u (by simp [hu])
    simp only [List.cons_append, maxScanF]
    by_cases hb : Fl.blt norm t
    · simp [hb, ih t hts]
    · simp [hb, ht, ih norm hts]

/-- When no NaN occurs, the scan is the plain fold of `fmax`. -/
theorem maxScanF_no_nan :
    ∀ (l : List Fl) (norm : Fl), (∀ u ∈ l, Fl.isnan u = false) →
      maxScanF norm l = l.foldl fmax norm := by
  intro l
  induction l with
  | nil => intro norm _; rfl
  | cons t ts ih =>
    intro norm h
    have ht : Fl.isnan t = false := h t (by simp)
    have hts : ∀ u ∈ ts, Fl.isnan u = false := fun u hu => h u (by simp [hu])
    simp only [maxScanF, List.foldl_cons, fmax]
    by_cases hb : Fl.blt norm t
    · simp [hb, ih t hts]
    · simp [hb, ht, ih norm hts]

/-- C5: the max-norm branch of `lanhe` scans the stored triangle in traversal
order (off-diagonal entries by full magnitude, diagonal entries by real-part
magnitude); it returns the first NaN magnitude encountered, and the result
does not depend on any entry after that NaN (the scan of `l1 ++ NaN :: l2`
returns NaN for every tail `l2`); when no NaN occurs it returns the running
maximum of the scanned magnitudes. -/
theorem lanhe_max_nan_policy (T : Type) (uplo : Uplo) (n : ℕ) (A : ℕ → ℕ → T)
    (absF absR : T → Fl) :
    (∀ l1 l2, scanList uplo n A absF absR = l1 ++ none :: l2 →
      (∀ u ∈ l1, Fl.isnan u = false) →
      lanheMax uplo n A absF absR = none ∧
      ∀ l2', maxScanF fzero (l1 ++ none :: l2') = none) ∧
    ((∀ u ∈ scanList uplo n A absF absR, Fl.isnan u = false) →
      lanheMax uplo n A absF absR =
        (scanList uplo n A absF absR).foldl fmax fzero) := by
  constructor
  · intro l1 l2 hdec h1
    have hn : n ≠ 0 := by
      intro h0
      subst h0
      have hsl : scanList uplo 0 A absF absR = [] := by
        cases uplo <;> simp [scanList]
      rw [hsl] at hdec
      have hlen := congrArg List.length hdec
      simp only [List.length_nil, List.length_append, List.length_cons] at hlen
      omega
    constructor
    · rw [lanheMax, if_neg hn, hdec]
      exact maxScanF_first_nan l2 l1 fzero h1
    · intro l2'
      exact maxScanF_first_nan l2' l1 fzero h1
  · intro h
    by_cases hn : n = 0
    · subst hn
      have : scanList uplo 0 A absF absR = [] := by
        cases uplo <;> simp [scanList]
      rw [lanheMax, if_pos rfl, this]
      rfl
    · rw [lanheMax, if_neg hn]
      exact maxScanF_no_nan _ fzero h

/-- Witness for `lanhe_max_nan_policy`: a concrete 2×2 upper view whose
(0,1) magnitude is NaN returns NaN whatever stands after the NaN, and a
NaN-free 2×2 view returns the fold of `fmax`. -/
theorem lanhe_max_nan_policy_witness :
    lanheMax .upper 2 (fun i j => if i = 0 ∧ j = 1 then none else some 1)
      (fun t => t) (fun t => t) = none ∧
    maxScanF fzero ([some 1] ++ none :: [some 7]) = none ∧
    lanheMax .upper 2 (fun i j => some ((i : ℚ) + j)) (fun t => t) (fun t => t) =
      (scanList .upper 2 (fun i j => some ((i : ℚ) + j)) (fun t => t)
        (fun t => t)).foldl fmax fzero := by
  have h1 := (lanhe_max_nan_policy Fl .upper 2
    (fun i j => if i = 0 ∧ j = 1 then none else some 1)
    (fun t => t) (fun t => t)).1 [some 1] [some 1] (by decide) (by decide)
  have h2 := (lanhe_max_nan_policy Fl .upper 2
    (fun i j => some ((i : ℚ) + j)) (fun t => t) (fun t => t)).2 (by decide)
  exact ⟨h1.1, h1.2 [some 7], h2⟩

/-! ### Claim C3: NaN poisoning of the accumulator state -/

/-- NaN absorbs addition on the left. -/
theorem Fl.add_none (x : Fl) : Fl.add none x = none := by cases x <;> rfl

/-- NaN absorbs addition on the right. -/
theorem Fl.add_none_right (x : Fl) : Fl.add x none = none := by cases x <;> rfl

/-- NaN absorbs multiplication on the left. -/
theorem Fl.mul_none (x : Fl) : Fl.mul none x = none := by cases x <;> rfl

/-- NaN absorbs multiplication on the right. -/
theorem Fl.mul_none_right (x : Fl) : Fl.mul x none = none := by cases x <;> rfl

/-- Comparison against NaN on the right is false. -/
theorem Fl.blt_none_right (x : Fl) : Fl.blt x none = false := by cases x <;> rfl

/-- Comparison against NaN on the left is false. -/
theorem Fl.blt_none_left (x : Fl) : Fl.blt none x = false := by cases x <;> rfl

/-- Once the medium accumulator is NaN, the element loop keeps it NaN. -/
theorem lassqLoopF_med_none {T : Type} (c : BlueC Fl) (absF : T → Fl) :
    ∀ (xs : List T) (asml abig : Fl),
      (lassqLoopF c absF xs (asml, none, abig)).2.1 = none := by
  intro xs
  induction xs with
  | nil => intro asml abig; rfl
  | cons t ts ih =>
    intro asml abig
    simp only [lassqLoopF]
    split_ifs <;> simp [Fl.add_none, ih]

/-- A NaN element magnitude forces the medium accumulator to NaN: the NaN
compares false against both thresholds, lands in the medium branch, and
poisons `amed` from then on. -/
theorem lassqLoopF_elem_nan {T : Type} (c : BlueC Fl) (absF : T → Fl) :
    ∀ (xs : List T) (acc : Fl × Fl × Fl), (∃ t ∈ xs, absF t = none) →
      (lassqLoopF c absF xs acc).2.1 = none := by
  intro xs
  induction xs with
  | nil =>
    intro acc h
    obtain ⟨t, ht, _⟩ := h
    simp at ht
  | cons t ts ih =>
    intro acc h
    obtain ⟨a, m, b⟩ := acc
    obtain ⟨u, hu, hnan⟩ := h
    rcases List.mem_cons.mp hu with hu | hu
    · subst hu
      simp only [lassqLoopF, hnan, Fl.blt_none_right, Fl.blt_none_left,
        if_false, Bool.false_eq_true]
      rw [Fl.mul_none, Fl.add_none_right]
      exact lassqLoopF_med_none c absF ts a b
    · simp only [lassqLoopF]
      split_ifs <;> exact ih _ ⟨u, hu, hnan⟩

/-- Folding the incoming state never clears a NaN medium accumulator. -/
theorem foldStateF_med_none (c : BlueC Fl) (sqrtF : Fl → Fl) (scl s : Fl)
    (acc : Fl × Fl × Fl) (h : acc.2.1 = none) :
    (foldStateF c sqrtF scl s acc).2.1 = none := by
  obtain ⟨a, m, b⟩ := acc
  simp only at h
  subst h
  simp only [foldStateF]
  split_ifs <;> simp [Fl.add_none]

/-- The merge propagates a NaN medium accumulator into the reported `sumsq`
in each of its three branches. -/
theorem mergeStateF_med_none (c : BlueC Fl) (sqrtF : Fl → Fl)
    (hsq : sqrtF none = none) (acc : Fl × Fl × Fl) (h : acc.2.1 = none) :
    (mergeStateF c sqrtF acc).2 = none := by
  obtain ⟨a, m, b⟩ := acc
  simp only at h
  subst h
  simp only [mergeStateF, Fl.isnan, Option.isNone_none, Bool.or_true, if_true,
    Fl.blt_none_left, Fl.blt_none_right, hsq]
  split_ifs
  all_goals simp_all [Fl.add_none_right, Fl.mul_none, Fl.mul_none_right,
    Fl.blt_none_left]

/-- C3: NaN poisoning is sticky and idempotent.  If `scl` or `sumsq` is NaN
on entry, `lassq` returns immediately with both unchanged; once any processed
element's magnitude is NaN, the resulting `sumsq` is NaN; and from a NaN
`sumsq` state every later `lassq` call leaves the state unchanged and every
reconstruction `scl * sqrt sumsq` is NaN, regardless of the further elements
supplied. -/
theorem lassq_nan_poisoning (T : Type) (c : BlueC Fl) (sqrtF : Fl → Fl)
    (absF : T → Fl) (hsq : sqrtF none = none) :
    (∀ (x : List T) (scl sumsq : Fl), (Fl.isnan scl || Fl.isnan sumsq) = true →
      lassqF c sqrtF absF x scl sumsq = (scl, sumsq)) ∧
    (∀ (x : List T) (scl sumsq : Fl), Fl.isnan scl = false →
      Fl.isnan sumsq = false → (∃ t ∈ x, absF t = none) →
      (lassqF c sqrtF absF x scl sumsq).2 = none) ∧
    (∀ (scl' : Fl) (ys : List T) (scl : Fl),
      lassqF c sqrtF absF ys scl none = (scl, none) ∧
      Fl.mul scl' (sqrtF none) = none) := by
  refine ⟨?_, ?_, ?_⟩
  · intro x scl sumsq h
    rw [lassqF, if_pos h]
  · intro x scl sumsq h1 h2 hex
    have hne : x.length ≠ 0 := by
      obtain ⟨t, ht, _⟩ := hex
      intro h0
      rw [List.length_eq_zero] at h0
      subst h0
      simp at ht
    rw [lassqF, if_neg (by simp [h1, h2]), if_neg hne]
    exact mergeStateF_med_none c sqrtF hsq _
      (foldStateF_med_none c sqrtF _ _ _ (lassqLoopF_elem_nan c absF x _ hex))
  · intro scl' ys scl
    constructor
    · rw [lassqF, if_pos (by simp [Fl.isnan])]
    · rw [hsq, Fl.mul_none_right]

/-- A concrete constants record for witnesses over the NaN model. -/
def cF : BlueC Fl :=
  ⟨some (1/4), some 4, some 4, some (1/4), some 1000⟩

/-- Witness for `lassq_nan_poisoning` at concrete inputs: a NaN entry state
is returned unchanged, a NaN element poisons `sumsq`, and the poisoned state
is inert under a further call with reconstruction NaN. -/
theorem lassq_nan_poisoning_witness :
    lassqF cF (fun x => x) (fun t : Fl => t) [some 1] none fone = (none, fone) ∧
    (lassqF cF (fun x => x) (fun t : Fl => t) [some 1, none] fone fzero).2 =
      none ∧
    lassqF cF (fun x => x) (fun t : Fl => t) [some 5] fone none = (fone, none) := by
  have h := lassq_nan_poisoning Fl cF (fun x => x) (fun t => t) rfl
  exact ⟨h.1 [some 1] none fone rfl,
    h.2.1 [some 1, none] fone fzero rfl rfl ⟨none, by simp, rfl⟩,
    (h.2.2 fone [some 5] fone).1⟩

/-! ### Claim C4: the workspace one/infinity norm -/

/-- The full row/column sum owned by slot `i` under upper storage: the
partial column sum above the diagonal, the diagonal real-part magnitude, and
the mirrored contributions `|A(i,c)|` for `c > i`, in the order the
traversal adds them. -/
def rowSumU {T : Type} (A : ℕ → ℕ → T) (absF absR : T → Fl) (n i : ℕ) : Fl :=
  ((List.range' (i + 1) (n - (i + 1))).map fun cc => absF (A i cc)).foldl
    Fl.add (Fl.add (colSumU A absF i) (absR (A i i)))

/-- The full row/column sum formed at column `j` under lower storage: the
mirrored contributions `|A(j,c)|` for `c < j`, the diagonal real-part
magnitude, and the strict column below the diagonal, in traversal order. -/
def rowSumL {T : Type} (A : ℕ → ℕ → T) (absF absR : T → Fl) (n j : ℕ) : Fl :=
  ((List.range' (j + 1) (n - (j + 1))).map fun i => absF (A i j)).foldl
    Fl.add (Fl.add (((List.range j).map fun cc => absF (A j cc)).foldl
      Fl.add fzero) (absR (A j j)))

/-- After processing columns `0..k-1` of the upper traversal, slot `i < k`
holds its own column sum plus the mirrored contributions from columns up to
`k`, and slots `i ≥ k` are untouched. -/
theorem workU_stage {T : Type} (A : ℕ → ℕ → T) (absF absR : T → Fl)
    (n : ℕ) (w0 : ℕ → Fl) :
    ∀ (k i : ℕ),
      (i < k →
        (List.range k).foldl (workStepU A absF absR)
            (fun i => if i < n then fzero else w0 i) i =
          ((List.range' (i + 1) (k - (i + 1))).map fun cc => absF (A i cc)).foldl
            Fl.add (Fl.add (colSumU A absF i) (absR (A i i)))) ∧
      (k ≤ i →
        (List.range k).foldl (workStepU A absF absR)
            (fun i => if i < n then fzero else w0 i) i =
          if i < n then fzero else w0 i) := by
  intro k
  induction k with
  | zero => exact fun i => ⟨fun h => absurd h (Nat.not_lt_zero i), fun _ => rfl⟩
  | succ k ih =>
    intro i
    rw [List.range_succ, List.foldl_append, List.foldl_cons, List.foldl_nil]
    constructor
    · intro hik
      rcases Nat.lt_succ_iff_lt_or_eq.mp hik with hik | hik
      · rw [workStepU, if_pos hik, (ih i).1 hik]
        have hk : k + 1 - (i + 1) = (k - (i + 1)) + 1 := by omega
        have hr : List.range' (i + 1) (k + 1 - (i + 1)) =
            List.range' (i + 1) (k - (i + 1)) ++ [k] := by
          rw [hk, List.range'_concat]
          congr 2
          omega
        rw [hr, List.map_append, List.foldl_append]
        rfl
      · subst hik
        rw [workStepU, if_neg (lt_irrefl i), if_pos rfl]
        have : i + 1 - (i + 1) = 0 := by omega
        simp [this]
    · intro hik
      rw [workStepU, if_neg (by omega), if_neg (by omega), (ih i).2 (by omega)]

/-- Slot `i < n` of the scratch buffer after the full upper traversal equals
the row/column sum of index `i`. -/
theorem workU_spec {T : Type} (A : ℕ → ℕ → T) (absF absR : T → Fl)
    (n : ℕ) (w0 : ℕ → Fl) (i : ℕ) (h : i < n) :
    workU A absF absR n w0 i = rowSumU A absF absR n i :=
  (workU_stage A absF absR n w0 n i).1 h

/-- The lower-triangle traversal with a correctly accumulated scratch buffer
is the max scan of the remaining row/column sums. -/
theorem lowerScan_spec {T : Type} (A : ℕ → ℕ → T) (absF absR : T → Fl)
    (n : ℕ) :
    ∀ (m k : ℕ) (w : ℕ → Fl) (norm : Fl), n - k = m →
      (∀ j, k ≤ j → j < n →
        w j = ((List.range k).map fun cc => absF (A j cc)).foldl Fl.add fzero) →
      lowerScan A absF absR n (List.range' k m) w norm =
        maxScanF norm ((List.range' k m).map (rowSumL A absF absR n)) := by
  intro m
  induction m with
  | zero => intro k w norm _ _; rfl
  | succ m ih =>
    intro k w norm hm hw
    have hkn : k < n := by omega
    have hs : lowerSum A absF absR w k n = rowSumL A absF absR n k := by
      rw [lowerSum, rowSumL, hw k le_rfl hkn]
    have hw' : ∀ j, k + 1 ≤ j → j < n →
        lowerStepW A absF w k n j =
          ((List.range (k + 1)).map fun cc => absF (A j cc)).foldl Fl.add
            fzero := by
      intro j h1 h2
      rw [lowerStepW, if_pos ⟨by omega, h2⟩, hw j (by omega) h2,
        List.range_succ, List.map_append, List.foldl_append]
      rfl
    rw [List.range'_succ, List.map_cons]
    simp only [lowerScan, maxScanF, hs]
    have hrec := ih (k + 1) (lowerStepW A absF w k n) (rowSumL A absF absR n k)
      (by omega) hw'
    have hrec' := ih (k + 1) (lowerStepW A absF w k n) norm (by omega) hw'
    split_ifs <;> [exact hrec; rfl; exact hrec']

/-- Folding NaN-free values with `Fl.add` from a non-NaN start stays
non-NaN. -/
theorem foldl_add_some :
    ∀ (l : List Fl) (q0 : ℚ), (∀ u ∈ l, Fl.isnan u = false) →
      Fl.isnan (l.foldl Fl.add (some q0)) = false := by
  intro l
  induction l with
  | nil => intro q0 _; rfl
  | cons u us ih =>
    intro q0 h
    have hu : Fl.isnan u = false := h u (by simp)
    obtain ⟨q, hq⟩ : ∃ q, u = some q := by
      cases u with
      | none => simp [Fl.isnan] at hu
      | some q => exact ⟨q, rfl⟩
    subst hq
    rw [List.foldl_cons]
    exact ih (q0 + q) fun v hv => h v (by simp [hv])

/-- The row/column sums are NaN-free whenever every referenced magnitude
is. -/
theorem rowSum_not_nan {T : Type} (A : ℕ → ℕ → T) (absF absR : T → Fl)
    (n : ℕ) (hF : ∀ i j, i < n → j < n → Fl.isnan (absF (A i j)) = false)
    (hR : ∀ j, j < n → Fl.isnan (absR (A j j)) = false) :
    ∀ i, i < n → (Fl.isnan (rowSumU A absF absR n i) = false ∧
      Fl.isnan (rowSumL A absF absR n i) = false) := by
  intro i hi
  have hcol : Fl.isnan (colSumU A absF i) = false := by
    rw [colSumU]
    exact foldl_add_some _ 0 fun u hu => by
      obtain ⟨j, hj, rfl⟩ := List.mem_map.mp hu
      exact hF j i (lt_trans (List.mem_range.mp hj) hi) hi
  obtain ⟨qc, hqc⟩ : ∃ q, colSumU A absF i = some q := by
    cases hx : colSumU A absF i with
    | none => rw [hx] at hcol; simp [Fl.isnan] at hcol
    | some q => exact ⟨q, rfl⟩
  obtain ⟨qd, hqd⟩ : ∃ q, absR (A i i) = some q := by
    have := hR i hi
    cases hx : absR (A i i) with
    | none => rw [hx] at this; simp [Fl.isnan] at this
    | some q => exact ⟨q, rfl⟩
  have hup : ∀ u ∈ (List.range' (i + 1) (n - (i + 1))).map
      fun cc => absF (A i cc), Fl.isnan u = false := by
    intro u hu
    obtain ⟨j, hj, rfl⟩ := List.mem_map.mp hu
    have := List.mem_range'_1.mp hj
    exact hF i j hi (by omega)
  have hmir : ∀ u ∈ (List.range i).map fun cc => absF (A i cc),
      Fl.isnan u = false := by
    intro u hu
    obtain ⟨j, hj, rfl⟩ := List.mem_map.mp hu
    exact hF i j hi (lt_trans (List.mem_range.mp hj) hi)
  have hlow : ∀ u ∈ (List.range' (i + 1) (n - (i + 1))).map
      fun r => absF (A r i), Fl.isnan u = false := by
    intro u hu
    obtain ⟨j, hj, rfl⟩ := List.mem_map.mp hu
    have := List.mem_range'_1.mp hj
    exact hF j i (by omega) hi
  constructor
  · rw [rowSumU, hqc, hqd]
    exact foldl_add_some _ (qc + qd) hup
  · obtain ⟨qm, hqm⟩ : ∃ q, ((List.range i).map fun cc => absF (A i cc)).foldl
        Fl.add fzero = some q := by
      have h0 : Fl.isnan (((List.range i).map fun cc => absF (A i cc)).foldl
          Fl.add fzero) = false := foldl_add_some _ 0 hmir
      cases hx : ((List.range i).map fun cc => absF (A i cc)).foldl
          Fl.add fzero with
      | none => rw [hx] at h0; simp [Fl.isnan] at h0
      | some q => exact ⟨q, rfl⟩
    rw [rowSumL, hqm, hqd]
    exact foldl_add_some _ (qm + qd) hlow

/-- C4: the workspace `lanhe` under `one_norm_t`/`inf_norm_t` makes one
traversal of the stored triangle, each visited off-diagonal magnitude going
both to its own column's running sum and to the mirrored slot of the scratch
buffer and each diagonal real-part magnitude to its own slot, so each final
slot holds the full row/column sum; the result is the maximum of the `n`
sums; and the returned value is the same for `one_norm_t` and `inf_norm_t`.
-/
theorem lanhe_work_one_inf (T : Type) (n : ℕ) (A : ℕ → ℕ → T)
    (absF absR : T → Fl) (w0 : ℕ → Fl)
    (hF : ∀ i j, i < n → j < n → Fl.isnan (absF (A i j)) = false)
    (hR : ∀ j, j < n → Fl.isnan (absR (A j j)) = false) :
    (∀ i, i < n → workU A absF absR n w0 i = rowSumU A absF absR n i) ∧
    lanheWork .one .upper n A absF absR w0 =
      ((List.range n).map (rowSumU A absF absR n)).foldl fmax fzero ∧
    lanheWork .one .lower n A absF absR w0 =
      ((List.range n).map (rowSumL A absF absR n)).foldl fmax fzero ∧
    (∀ (nt ntb : OneInf) (uplo : Uplo),
      lanheWork nt uplo n A absF absR w0 =
        lanheWork ntb uplo n A absF absR w0) := by
  refine ⟨workU_spec A absF absR n w0, ?_, ?_, fun nt ntb uplo => rfl⟩
  · by_cases hn : n = 0
    · subst hn; rfl
    · rw [lanheWork, if_neg hn]
      have hmap : (List.range n).map (workU A absF absR n w0) =
          (List.range n).map (rowSumU A absF absR n) :=
        List.map_congr_left fun i hi =>
          workU_spec A absF absR n w0 i (List.mem_range.mp hi)
      rw [hmap]
      exact maxScanF_no_nan _ fzero fun u hu => by
        obtain ⟨i, hi, rfl⟩ := List.mem_map.mp hu
        exact (rowSum_not_nan A absF absR n hF hR i (List.mem_range.mp hi)).1
  · by_cases hn : n = 0
    · subst hn; rfl
    · rw [lanheWork, if_neg hn]
      have h0 : List.range n = List.range' 0 n := List.range_eq_range' n
      rw [h0]
      rw [lowerScan_spec A absF absR n n 0
        (fun i => if i < n then fzero else w0 i) fzero (by omega)
        (fun j _ _ => by simp [*])]
      rw [← h0]
      exact maxScanF_no_nan _ fzero fun u hu => by
        obtain ⟨i, hi, rfl⟩ := List.mem_map.mp hu
        exact (rowSum_not_nan A absF absR n hF hR i (List.mem_range.mp hi)).2

/-- Witness for `lanhe_work_one_inf` on a concrete NaN-free 2×2 view. -/
theorem lanhe_work_one_inf_witness :
    (∀ i, i < 2 →
      workU (fun i j : ℕ => (some ((i : ℚ) + 2 * j) : Fl)) (fun t => t)
        (fun t => t) 2 (fun _ => some 9) i =
      rowSumU (fun i j : ℕ => (some ((i : ℚ) + 2 * j) : Fl)) (fun t => t)
        (fun t => t) 2 i) ∧
    lanheWork .one .upper 2 (fun i j : ℕ => (some ((i : ℚ) + 2 * j) : Fl))
        (fun t => t) (fun t => t) (fun _ => some 9) =
      ((List.range 2).map (rowSumU (fun i j : ℕ => (some ((i : ℚ) + 2 * j) : Fl))
        (fun t => t) (fun t => t) 2)).foldl fmax fzero := by
  have h := lanhe_work_one_inf Fl 2 (fun i j : ℕ => (some ((i : ℚ) + 2 * j) : Fl))
    (fun t => t) (fun t => t) (fun _ => some 9) (fun i j _ _ => rfl)
    (fun j _ => rfl)
  exact ⟨h.1, h.2.1⟩

/-! ### Exact-model helper lemmas -/

section ExactLemmas

variable {R : Type} [LinearOrderedField R] {T : Type}

/-- A function satisfying the square-root trait contract is determined on
squares. -/
theorem sqrt_spec_eq (sqrt : R → R)
    (hsq : ∀ a : R, 0 ≤ a → sqrt a * sqrt a = a)
    (hsqn : ∀ a : R, 0 ≤ a → 0 ≤ sqrt a) (a b : R) (hb : 0 ≤ b)
    (hab : b * b = a) : sqrt a = b := by
  have ha : 0 ≤ a := hab ▸ mul_self_nonneg b
  have h1 : sqrt a * sqrt a = b * b := by rw [hsq a ha, hab]
  exact (mul_self_inj (hsqn a ha) hb).mp h1

/-- Upper bound on a trait square root from an upper bound on the square. -/
theorem sqrt_spec_le (sqrt : R → R)
    (hsq : ∀ a : R, 0 ≤ a → sqrt a * sqrt a = a)
    (hsqn : ∀ a : R, 0 ≤ a → 0 ≤ sqrt a) (a b : R) (hb : 0 ≤ b)
    (ha : 0 ≤ a) (hab : a ≤ b * b) : sqrt a ≤ b := by
  by_contra h
  push_neg at h
  have := mul_self_lt_mul_self hb h
  rw [hsq a ha] at this
  linarith

/-- Lower bound on a trait square root from a lower bound on the square. -/
theorem sqrt_spec_ge (sqrt : R → R)
    (hsq : ∀ a : R, 0 ≤ a → sqrt a * sqrt a = a)
    (hsqn : ∀ a : R, 0 ≤ a → 0 ≤ sqrt a) (a b : R) (hb : 0 ≤ b)
    (ha : 0 ≤ a) (hab : b * b ≤ a) : b ≤ sqrt a := by
  by_contra h
  push_neg at h
  have := mul_self_lt_mul_self (hsqn a ha) h
  rw [hsq a ha] at this
  linarith

/-- Entry normalization is idempotent: a second call with an already
normalized state changes nothing. -/
theorem normState_idem (scl sumsq : R) :
    normState (normState scl sumsq).1 (normState scl sumsq).2 =
      normState scl sumsq := by
  rw [normState, normState]
  by_cases h2 : sumsq = 0
  · simp [h2]
  · by_cases h1 : scl = 0
    · simp [h1, h2]
    · simp [h1, h2]

/-- When every element is zero or medium-classified and `abig` starts at 0,
the loop adds exactly the squares of the magnitudes to `amed` and changes
nothing else. -/
theorem lassqLoop_medium (c : BlueC R) (absF : T → R)
    (hts : 0 < c.tsml) (htb : c.tsml ≤ c.tbig) :
    ∀ (x : List T) (s m : R),
      (∀ t ∈ x, absF t = 0 ∨ (c.tsml ≤ absF t ∧ absF t ≤ c.tbig)) →
      lassqLoop c absF x (s, m, 0) =
        (s, m + ((x.map absF).map fun a => a * a).sum, 0) := by
  intro x
  induction x with
  | nil => intro s m _; simp [lassqLoop]
  | cons t ts ih =>
    intro s m h
    have ht := h t (by simp)
    have hts' : ∀ u ∈ ts, absF u = 0 ∨ (c.tsml ≤ absF u ∧ absF u ≤ c.tbig) :=
      fun u hu => h u (by simp [hu])
    rcases ht with ht | ht
    · rw [lassqLoop, if_neg (by rw [ht]; exact not_lt.mpr (by linarith)),
        if_pos (by rw [ht]; exact hts), if_pos rfl, ht, ih _ _ hts']
      simp only [List.map_cons, List.sum_cons, ht]
      rw [Prod.mk.injEq, Prod.mk.injEq]
      exact ⟨by ring, by ring, rfl⟩
    · rw [lassqLoop, if_neg (not_lt.mpr ht.2), if_neg (not_lt.mpr ht.1),
        ih _ _ hts']
      simp only [List.map_cons, List.sum_cons]
      rw [Prod.mk.injEq, Prod.mk.injEq]
      exact ⟨rfl, by ring, rfl⟩

/-- The medium-regime evaluation of `lassq`: when the incoming state and
every element magnitude are zero or medium-classified, the call returns
exactly `(1, scl² · sumsq + Σ aᵢ²)`. -/
theorem lassq_all_medium (c : BlueC R) (sqrt : R → R) (absF : T → R)
    (x : List T) (scl sumsq : R)
    (hts : 0 < c.tsml) (htb : c.tsml ≤ c.tbig) (hsum : 0 ≤ sumsq)
    (hne : x ≠ [])
    (hel : ∀ t ∈ x, absF t = 0 ∨ (c.tsml ≤ absF t ∧ absF t ≤ c.tbig))
    (hst : sumsq = 0 ∨ scl = 0 ∨
      (c.tsml ≤ scl * sqrt sumsq ∧ scl * sqrt sumsq ≤ c.tbig)) :
    lassq c sqrt absF x scl sumsq =
      (1, scl * scl * sumsq + ((x.map absF).map fun a => a * a).sum) := by
  have hlen : x.length ≠ 0 := fun h => hne (List.length_eq_zero.mp h)
  rw [lassq]
  simp only [hlen, if_false]
  have hloop := lassqLoop_medium c absF hts htb x 0 0 hel
  rcases hst with hst | hst
  · -- sumsq = 0: the normalized state is (1, 0) and the fold is skipped.
    subst hst
    have hnorm : normState scl (0 : R) = (1, 0) := by simp [normState]
    rw [hnorm]
    simp only
    rw [hloop, foldState]
    simp only [lt_irrefl, if_false]
    rw [mergeState]
    simp only [lt_irrefl, if_false]
    rw [Prod.mk.injEq]
    exact ⟨rfl, by ring⟩
  · by_cases h2 : sumsq = 0
    · subst h2
      have hnorm : normState scl (0 : R) = (1, 0) := by simp [normState]
      rw [hnorm]
      simp only
      rw [hloop, foldState]
      simp only [lt_irrefl, if_false]
      rw [mergeState]
      simp only [lt_irrefl, if_false]
      rw [Prod.mk.injEq]
      exact ⟨rfl, by ring⟩
    · rcases hst with hst | hst
      · -- scl = 0, sumsq ≠ 0: the normalized state is (1, 0).
        subst hst
        have hnorm : normState (0 : R) sumsq = (1, 0) := by
          simp [normState, h2]
        rw [hnorm]
        simp only
        rw [hloop, foldState]
        simp only [lt_irrefl, if_false]
        rw [mergeState]
        simp only [lt_irrefl, if_false]
        rw [Prod.mk.injEq]
        exact ⟨rfl, by ring⟩
      · -- Non-degenerate state: the fold classifies medium.
        have hscl0 : scl ≠ 0 := by
          intro h0
          subst h0
          simp only [zero_mul] at hst
          linarith
        have hnorm : normState scl sumsq = (scl, sumsq) := by
          simp [normState, h2, hscl0]
        rw [hnorm]
        simp only
        rw [hloop, foldState]
        have hpos : 0 < sumsq := lt_of_le_of_ne hsum (Ne.symm h2)
        rw [if_pos hpos]
        simp only [if_neg (not_lt.mpr hst.2), if_neg (not_lt.mpr hst.1)]
        rw [mergeState]
        simp only [lt_irrefl, if_false]
        rw [Prod.mk.injEq]
        exact ⟨rfl, by ring⟩

end ExactLemmas

/-! ### Claim C7: entry normalization and the [3,4] scenario -/

/-- C7: before any element is processed `lassq` normalizes its state —
`sumsq = 0` forces `scale = 1` (hence the state `(1, 0)`), and `scale = 0`
forces the state `(1, 0)`, so a call entered with `scale = 0` behaves exactly
like one entered with `(1, 0)`; consequently accumulating `[3.0, 4.0]` from
`(scale, sumsq) = (0, 1)` produces a state that reconstructs to
`scale * sqrt sumsq = 5`. -/
theorem lassq_normalization_scenario {R : Type} [LinearOrderedField R]
    (c : BlueC R) (sqrt : R → R)
    (hsq : ∀ a : R, 0 ≤ a → sqrt a * sqrt a = a)
    (hsqn : ∀ a : R, 0 ≤ a → 0 ≤ sqrt a)
    (hts : 0 < c.tsml) (h3 : c.tsml ≤ 3) (h4 : (4 : R) ≤ c.tbig) :
    (∀ scl : R, normState scl (0 : R) = (1, 0)) ∧
    (∀ t : R, normState (0 : R) t = (1, 0)) ∧
    (∀ (T : Type) (absF : T → R) (x : List T) (t : R),
      lassq c sqrt absF x 0 t = lassq c sqrt absF x 1 0) ∧
    (lassq c sqrt (fun a : R => |a|) [3, 4] 0 1).1 *
      sqrt (lassq c sqrt (fun a : R => |a|) [3, 4] 0 1).2 = 5 := by
  have hn0 : ∀ scl : R, normState scl (0 : R) = (1, 0) := by
    intro scl; simp [normState]
  have hn1 : ∀ t : R, normState (0 : R) t = (1, 0) := by
    intro t
    by_cases h : t = 0 <;> simp [normState, h]
  refine ⟨hn0, hn1, ?_, ?_⟩
  · intro T absF x t
    rw [lassq, lassq, hn1 t, hn0 1]
  · have htb : c.tsml ≤ c.tbig := le_trans h3 (by linarith)
    have hmed := lassq_all_medium c sqrt (fun a : R => |a|) [3, 4] 0 1
      hts htb (by norm_num) (by simp)
      (by
        intro t ht
        right
        rcases List.mem_pair.mp ht with h | h <;> subst h
        · constructor
          · show c.tsml ≤ |(3:R)|
            rw [abs_of_nonneg (by norm_num : (0:R) ≤ 3)]; exact h3
          · show |(3:R)| ≤ c.tbig
            rw [abs_of_nonneg (by norm_num : (0:R) ≤ 3)]; linarith
        · constructor
          · show c.tsml ≤ |(4:R)|
            rw [abs_of_nonneg (by norm_num : (0:R) ≤ 4)]; linarith
          · show |(4:R)| ≤ c.tbig
            rw [abs_of_nonneg (by norm_num : (0:R) ≤ 4)]; exact h4)
      (Or.inr (Or.inl rfl))
    rw [hmed]
    have hsum : (0 : R) * 0 * 1 +
        ((([3, 4] : List R).map fun a : R => |a|).map fun a => a * a).sum = 25 := by
      simp [abs_of_nonneg, List.sum_cons]
      norm_num [abs_of_nonneg (by norm_num : (0:R) ≤ 3),
        abs_of_nonneg (by norm_num : (0:R) ≤ 4)]
    rw [hsum]
    rw [sqrt_spec_eq sqrt hsq hsqn 25 5 (by norm_num) (by norm_num)]
    norm_num

/-- Witness for `lassq_normalization_scenario` over ℝ with `Real.sqrt` and
concrete constants `tsml = 1/4`, `tbig = 4`, `ssml = 4`, `sbig = 1/4`,
`safeMax = 1000`. -/
theorem lassq_normalization_scenario_witness :
    normState (5 : ℝ) 0 = (1, 0) ∧ normState (0 : ℝ) 7 = (1, 0) ∧
    lassq (⟨1/4, 4, 4, 1/4, 1000⟩ : BlueC ℝ) Real.sqrt (fun a : ℝ => |a|)
        [2] 0 7 =
      lassq (⟨1/4, 4, 4, 1/4, 1000⟩ : BlueC ℝ) Real.sqrt (fun a : ℝ => |a|)
        [2] 1 0 ∧
    (lassq (⟨1/4, 4, 4, 1/4, 1000⟩ : BlueC ℝ) Real.sqrt (fun a : ℝ => |a|)
        [3, 4] 0 1).1 *
      Real.sqrt (lassq (⟨1/4, 4, 4, 1/4, 1000⟩ : BlueC ℝ) Real.sqrt
        (fun a : ℝ => |a|) [3, 4] 0 1).2 = 5 := by
  have h := lassq_normalization_scenario (⟨1/4, 4, 4, 1/4, 1000⟩ : BlueC ℝ)
    Real.sqrt (fun a ha => Real.mul_self_sqrt ha) (fun a _ => Real.sqrt_nonneg a)
    (by norm_num) (by norm_num) (by norm_num)
  exact ⟨h.1 5, h.2.1 7, h.2.2.1 ℝ (fun a => |a|) [2] 7, h.2.2.2⟩

/-! ### Claim C2: the Frobenius branch of `lanhe` and the √371 scenario -/

/-- C2: the Frobenius branch of `lanhe` accumulates the off-diagonal
triangle into `(scale, ssq)`, then doubles analytically — `ssq * 2` when
`ssq` is below `safe_max` and `scale * sqrt 2` otherwise — then folds the
diagonal real-part magnitudes in one further `lassq` pass and returns
`scale * sqrt ssq`; on a 3×3 upper view with diagonal magnitudes `[4, 9, 16]`
and one off-diagonal magnitude `3` it returns `sqrt 371`. -/
theorem lanhe_frob_scenario {R : Type} [LinearOrderedField R] (T : Type)
    (c : BlueC R) (sqrt : R → R)
    (hsq : ∀ a : R, 0 ≤ a → sqrt a * sqrt a = a)
    (hsqn : ∀ a : R, 0 ≤ a → 0 ≤ sqrt a)
    (hts : 0 < c.tsml) (h3 : c.tsml ≤ 3) (h16 : (16 : R) ≤ c.tbig)
    (hsm : (9 : R) < c.safeMax)
    (A : ℕ → ℕ → T) (absF absR : T → R)
    (h01 : absF (A 0 1) = 3) (h02 : absF (A 0 2) = 0) (h12 : absF (A 1 2) = 0)
    (hd0 : absR (A 0 0) = 4) (hd1 : absR (A 1 1) = 9)
    (hd2 : absR (A 2 2) = 16) :
    (∀ sc ss : R, ss < c.safeMax →
      doubleStep c sqrt (sc, ss) = (sc, ss * 2)) ∧
    (∀ sc ss : R, ¬ ss < c.safeMax →
      doubleStep c sqrt (sc, ss) = (sc * sqrt 2, ss)) ∧
    lanheFrob c sqrt absF absR .upper 3 A = sqrt 371 := by
  have htb : c.tsml ≤ c.tbig := by linarith
  refine ⟨?_, ?_, ?_⟩
  · intro sc ss h
    rw [doubleStep, if_pos h]
  · intro sc ss h
    rw [doubleStep, if_neg h]
  · have hstep1 : lassq c sqrt absF ((List.range 1).map fun i => A i 1)
        (0 : R) 1 = (1, 9) := by
      rw [show (List.range 1).map (fun i => A i 1) = [A 0 1] from rfl]
      rw [lassq_all_medium c sqrt absF [A 0 1] 0 1 hts htb (by norm_num)
        (by simp)
        (by
          intro t ht
          rw [List.mem_singleton.mp ht]
          right
          rw [h01]
          exact ⟨h3, by linarith⟩)
        (Or.inr (Or.inl rfl))]
      rw [Prod.mk.injEq]
      refine ⟨rfl, ?_⟩
      simp [h01]
      norm_num
    have hsqrt9 : sqrt 9 = 3 :=
      sqrt_spec_eq sqrt hsq hsqn 9 3 (by norm_num) (by norm_num)
    have hstep2 : lassq c sqrt absF ((List.range 2).map fun i => A i 2)
        (1 : R) 9 = (1, 9) := by
      rw [show (List.range 2).map (fun i => A i 2) = [A 0 2, A 1 2] from rfl]
      rw [lassq_all_medium c sqrt absF [A 0 2, A 1 2] 1 9 hts htb
        (by norm_num) (by simp)
        (by
          intro t ht
          rcases List.mem_pair.mp ht with h | h <;> rw [h]
          · left; exact h02
          · left; exact h12)
        (Or.inr (Or.inr (by
          rw [one_mul, hsqrt9]
          exact ⟨h3, by linarith⟩)))]
      rw [Prod.mk.injEq]
      refine ⟨rfl, ?_⟩
      simp [h02, h12]
    have hdouble : doubleStep c sqrt ((1 : R), (9 : R)) = (1, 18) := by
      rw [doubleStep, if_pos (show ((1 : R), (9 : R)).2 < c.safeMax from hsm)]
      norm_num
    have hsqrt18a : (3 : R) ≤ sqrt 18 :=
      sqrt_spec_ge sqrt hsq hsqn 18 3 (by norm_num) (by norm_num) (by norm_num)
    have hsqrt18b : sqrt 18 ≤ (16 : R) :=
      sqrt_spec_le sqrt hsq hsqn 18 16 (by norm_num) (by norm_num) (by norm_num)
    have hstep3 : lassq c sqrt absR ((List.range 3).map fun j => A j j)
        (1 : R) 18 = (1, 371) := by
      rw [show (List.range 3).map (fun j => A j j) = [A 0 0, A 1 1, A 2 2]
        from rfl]
      rw [lassq_all_medium c sqrt absR [A 0 0, A 1 1, A 2 2] 1 18 hts htb
        (by norm_num) (by simp)
        (by
          intro t ht
          rcases List.mem_cons.mp ht with h | ht
          · rw [h, hd0]; right; exact ⟨by linarith, by linarith⟩
          rcases List.mem_cons.mp ht with h | ht
          · rw [h, hd1]; right; exact ⟨by linarith, by linarith⟩
          · rw [List.mem_singleton.mp ht, hd2]
            right
            exact ⟨by linarith, by linarith⟩)
        (Or.inr (Or.inr (by
          rw [one_mul]
          exact ⟨by linarith, by linarith⟩)))]
      rw [Prod.mk.injEq]
      refine ⟨rfl, ?_⟩
      simp [hd0, hd1, hd2]
      norm_num
    rw [lanheFrob, if_neg (by norm_num : ¬(3 = 0))]
    simp only
    rw [show List.range' 1 (3 - 1) = [1, 2] from rfl, List.foldl_cons,
      List.foldl_cons, List.foldl_nil]
    rw [show lassq c sqrt absF ((List.range 1).map fun i => A i 1)
        ((0 : R), (1 : R)).1 ((0 : R), (1 : R)).2 =
      lassq c sqrt absF ((List.range 1).map fun i => A i 1) (0 : R) 1
      from rfl]
    rw [hstep1]
    rw [show lassq c sqrt absF ((List.range 2).map fun i => A i 2)
        ((1 : R), (9 : R)).1 ((1 : R), (9 : R)).2 =
      lassq c sqrt absF ((List.range 2).map fun i => A i 2) (1 : R) 9
      from rfl]
    rw [hstep2, hdouble]
    rw [show lassq c sqrt absR ((List.range 3).map fun j => A j j)
        ((1 : R), (18 : R)).1 ((1 : R), (18 : R)).2 =
      lassq c sqrt absR ((List.range 3).map fun j => A j j) (1 : R) 18
      from rfl]
    rw [hstep3]
    rw [show ((1 : R), (371 : R)).1 = 1 from rfl,
      show ((1 : R), (371 : R)).2 = 371 from rfl, one_mul]

/-- Witness for `lanhe_frob_scenario` over ℝ with `Real.sqrt`, concrete
constants and the concrete scenario matrix. -/
theorem lanhe_frob_scenario_witness :
    doubleStep (⟨1/4, 100, 4, 1/4, 1000⟩ : BlueC ℝ) Real.sqrt (2, 5) =
      (2, 5 * 2) ∧
    doubleStep (⟨1/4, 100, 4, 1/4, 1000⟩ : BlueC ℝ) Real.sqrt (2, 2000) =
      (2 * Real.sqrt 2, 2000) ∧
    lanheFrob (⟨1/4, 100, 4, 1/4, 1000⟩ : BlueC ℝ) Real.sqrt
      (fun x : ℝ => |x|) (fun x : ℝ => |x|) .upper 3
      (fun i j => if i = 0 ∧ j = 0 then 4 else if i = 1 ∧ j = 1 then 9
        else if i = 2 ∧ j = 2 then 16 else if i = 0 ∧ j = 1 then 3 else 0) =
      Real.sqrt 371 := by
  have h := lanhe_frob_scenario ℝ (⟨1/4, 100, 4, 1/4, 1000⟩ : BlueC ℝ)
    Real.sqrt (fun a ha => Real.mul_self_sqrt ha) (fun a _ => Real.sqrt_nonneg a)
    (by norm_num) (by norm_num) (by norm_num) (by norm_num)
    (fun i j => if i = 0 ∧ j = 0 then 4 else if i = 1 ∧ j = 1 then 9
      else if i = 2 ∧ j = 2 then 16 else if i = 0 ∧ j = 1 then 3 else 0)
    (fun x : ℝ => |x|) (fun x : ℝ => |x|)
    (by norm_num) (by norm_num) (by norm_num) (by norm_num) (by norm_num)
    (by norm_num)
  exact ⟨h.1 2 5 (by norm_num), h.2.1 2 2000 (by norm_num), h.2.2⟩

/-! ### Claim C6: chunking invariance -/

/-- Evaluation of the two-call and one-call accumulations of
`[3, 3, 3] ++ [3]` from `(1, 0)` for any constants with
`tsml = 1/4`, `tbig = 4`, `ssml = 4`, `sbig = 1/4`: the second call folds the
first call's state `(1, 27)` through the big branch (`sqrt 27 > 4`), giving
the pair `(4, 9/4)`, while the single call stays medium and gives
`(1, 36)`. -/
theorem lassq_chunk_eval (c : BlueC ℝ) (h1 : c.tsml = 1/4) (h2 : c.tbig = 4)
    (h3 : c.ssml = 4) (h4 : c.sbig = 1/4) :
    lassq c Real.sqrt (fun a : ℝ => |a|) [3]
        (lassq c Real.sqrt (fun a : ℝ => |a|) [3, 3, 3] 1 0).1
        (lassq c Real.sqrt (fun a : ℝ => |a|) [3, 3, 3] 1 0).2 = (4, 9/4) ∧
    lassq c Real.sqrt (fun a : ℝ => |a|) ([3, 3, 3] ++ [3]) 1 0 = (1, 36) := by
  have hts : 0 < c.tsml := by rw [h1]; norm_num
  have htb : c.tsml ≤ c.tbig := by rw [h1, h2]; norm_num
  have hel3 : ∀ x : List ℝ, (∀ t ∈ x, t = 3 ∨ t = 3) →
      ∀ t ∈ x, (fun a : ℝ => |a|) t = 0 ∨
        (c.tsml ≤ (fun a : ℝ => |a|) t ∧ (fun a : ℝ => |a|) t ≤ c.tbig) := by
    intro x hx t ht
    rcases hx t ht with h | h <;> subst h
    all_goals
      right
      constructor
      · show c.tsml ≤ |(3:ℝ)|
        rw [h1, abs_of_nonneg (by norm_num : (0:ℝ) ≤ 3)]
        norm_num
      · show |(3:ℝ)| ≤ c.tbig
        rw [h2, abs_of_nonneg (by norm_num : (0:ℝ) ≤ 3)]
        norm_num
  have hcall1 : lassq c Real.sqrt (fun a : ℝ => |a|) [3, 3, 3] 1 0 =
      (1, 27) := by
    rw [lassq_all_medium c Real.sqrt (fun a : ℝ => |a|) [3, 3, 3] 1 0 hts htb
      (by norm_num) (by simp)
      (hel3 [3, 3, 3] (by intro t ht; left; simpa using ht))
      (Or.inl rfl)]
    rw [Prod.mk.injEq]
    refine ⟨rfl, ?_⟩
    simp [abs_of_nonneg (by norm_num : (0:ℝ) ≤ 3)]
    norm_num
  have hnorm : normState (1 : ℝ) 27 = (1, 27) := by norm_num [normState]
  have hloop : lassqLoop c (fun a : ℝ => |a|) [3] ((0:ℝ), (0:ℝ), (0:ℝ)) =
      (0, 9, 0) := by
    rw [lassqLoop_medium c (fun a : ℝ => |a|) hts htb [3] 0 0
      (hel3 [3] (by intro t ht; left; simpa using ht))]
    rw [Prod.mk.injEq, Prod.mk.injEq]
    refine ⟨rfl, ?_, rfl⟩
    simp [abs_of_nonneg (by norm_num : (0:ℝ) ≤ 3)]
    norm_num
  have hbig : c.tbig < 1 * Real.sqrt 27 := by
    rw [h2, one_mul]
    exact (Real.lt_sqrt (by norm_num)).mpr (by norm_num)
  have hfold : foldState c Real.sqrt 1 27 ((0:ℝ), (9:ℝ), (0:ℝ)) =
      (0, 9, 27/16) := by
    rw [foldState]
    simp only
    rw [if_pos (by norm_num : (0:ℝ) < 27), if_pos hbig]
    rw [Prod.mk.injEq, Prod.mk.injEq]
    refine ⟨rfl, rfl, ?_⟩
    rw [h4]
    norm_num
  have hmerge : mergeState c Real.sqrt ((0:ℝ), (9:ℝ), (27/16 : ℝ)) =
      (4, 9/4) := by
    rw [mergeState]
    simp only
    rw [if_pos (by norm_num : (0:ℝ) < 27/16), if_pos (by norm_num : (0:ℝ) < 9)]
    rw [Prod.mk.injEq]
    constructor
    · rw [h4]; norm_num
    · rw [h4]; norm_num
  constructor
  · rw [hcall1]
    rw [show ((1:ℝ), (27:ℝ)).1 = 1 from rfl, show ((1:ℝ), (27:ℝ)).2 = 27
      from rfl]
    rw [lassq, if_neg (by norm_num : ¬([3] : List ℝ).length = 0)]
    rw [hnorm]
    rw [show ((1:ℝ), (27:ℝ)).1 = 1 from rfl, show ((1:ℝ), (27:ℝ)).2 = 27
      from rfl]
    rw [hloop, hfold, hmerge]
  · rw [lassq_all_medium c Real.sqrt (fun a : ℝ => |a|) ([3, 3, 3] ++ [3]) 1 0
      hts htb (by norm_num) (by simp)
      (hel3 ([3, 3, 3] ++ [3]) (by intro t ht; left; simpa using ht))
      (Or.inl rfl)]
    rw [Prod.mk.injEq]
    refine ⟨rfl, ?_⟩
    simp [abs_of_nonneg (by norm_num : (0:ℝ) ≤ 3)]
    norm_num

/-- Counterexample to C6 as stated: accumulating `[3, 3, 3] ++ [3]` from the
well-formed state `(1, 0)` in one call gives the pair `(1, 36)`, while the
two sequential calls give `(4, 9/4)` — a different `(scale, sumsq)` pair
altogether (not a rounding-level perturbation), though both represent the
value 36. -/
theorem lassq_chunk_counterexample :
    lassq (⟨1/4, 4, 4, 1/4, 1000⟩ : BlueC ℝ) Real.sqrt (fun a : ℝ => |a|) [3]
        (lassq (⟨1/4, 4, 4, 1/4, 1000⟩ : BlueC ℝ) Real.sqrt
          (fun a : ℝ => |a|) [3, 3, 3] 1 0).1
        (lassq (⟨1/4, 4, 4, 1/4, 1000⟩ : BlueC ℝ) Real.sqrt
          (fun a : ℝ => |a|) [3, 3, 3] 1 0).2 ≠
      lassq (⟨1/4, 4, 4, 1/4, 1000⟩ : BlueC ℝ) Real.sqrt (fun a : ℝ => |a|)
        ([3, 3, 3] ++ [3]) 1 0 ∧
    (4 : ℝ) * 4 * (9/4) = 1 * 1 * 36 := by
  have h := lassq_chunk_eval (⟨1/4, 4, 4, 1/4, 1000⟩ : BlueC ℝ) rfl rfl rfl rfl
  refine ⟨?_, by norm_num⟩
  rw [h.1, h.2]
  intro hcontra
  have := congrArg Prod.fst hcontra
  norm_num at this

/-- C6 amended: chunking invariance of the `(scale, sumsq)` pair holds when
every element magnitude and every folded accumulator magnitude is
medium-classified (no rescaling path is taken): the one-call and two-call
accumulations then return the identical pair.  (In general the two pairs may
differ — only the represented value is preserved — as the counterexample
shows.) -/
theorem lassq_chunk_medium {R : Type} [LinearOrderedField R] {T : Type}
    (c : BlueC R) (sqrt : R → R) (absF : T → R) (xs ys : List T)
    (scl sumsq : R)
    (hts : 0 < c.tsml) (htb : c.tsml ≤ c.tbig) (hsum : 0 ≤ sumsq)
    (hxs : xs ≠ []) (hys : ys ≠ [])
    (helx : ∀ t ∈ xs, absF t = 0 ∨ (c.tsml ≤ absF t ∧ absF t ≤ c.tbig))
    (hely : ∀ t ∈ ys, absF t = 0 ∨ (c.tsml ≤ absF t ∧ absF t ≤ c.tbig))
    (hst : sumsq = 0 ∨ scl = 0 ∨
      (c.tsml ≤ scl * sqrt sumsq ∧ scl * sqrt sumsq ≤ c.tbig))
    (hmid : scl * scl * sumsq + ((xs.map absF).map fun a => a * a).sum = 0 ∨
      (c.tsml ≤ sqrt (scl * scl * sumsq +
          ((xs.map absF).map fun a => a * a).sum) ∧
        sqrt (scl * scl * sumsq +
          ((xs.map absF).map fun a => a * a).sum) ≤ c.tbig)) :
    lassq c sqrt absF ys (lassq c sqrt absF xs scl sumsq).1
        (lassq c sqrt absF xs scl sumsq).2 =
      lassq c sqrt absF (xs ++ ys) scl sumsq := by
  have h1 := lassq_all_medium c sqrt absF xs scl sumsq hts htb hsum hxs helx hst
  have hV : 0 ≤ scl * scl * sumsq + ((xs.map absF).map fun a => a * a).sum := by
    have h0 : 0 ≤ scl * scl * sumsq :=
      mul_nonneg (mul_self_nonneg scl) hsum
    have hS : 0 ≤ ((xs.map absF).map fun a => a * a).sum :=
      List.sum_nonneg fun a ha => by
        obtain ⟨b, _, rfl⟩ := List.mem_map.mp ha
        exact mul_self_nonneg b
    linarith
  have h2 := lassq_all_medium c sqrt absF ys
    (1 : R) (scl * scl * sumsq + ((xs.map absF).map fun a => a * a).sum)
    hts htb hV hys hely
    (by
      rcases hmid with hmid | hmid
      · exact Or.inl hmid
      · exact Or.inr (Or.inr (by rwa [one_mul])))
  have h3 := lassq_all_medium c sqrt absF (xs ++ ys) scl sumsq hts htb hsum
    (fun h => hxs (List.append_eq_nil.mp h).1)
    (by
      intro t ht
      rcases List.mem_append.mp ht with ht | ht
      · exact helx t ht
      · exact hely t ht)
    hst
  rw [h1]
  rw [show ((1 : R), scl * scl * sumsq +
      ((xs.map absF).map fun a => a * a).sum).1 = 1 from rfl]
  rw [show ((1 : R), scl * scl * sumsq +
      ((xs.map absF).map fun a => a * a).sum).2 =
    scl * scl * sumsq + ((xs.map absF).map fun a => a * a).sum from rfl]
  rw [h2, h3]
  rw [Prod.mk.injEq]
  refine ⟨rfl, ?_⟩
  rw [List.map_append, List.map_append, List.sum_append]
  ring

/-- Witness for `lassq_chunk_medium` at the concrete medium-regime split
`[3] ++ [4]` from `(1, 0)` over ℝ with `Real.sqrt`. -/
theorem lassq_chunk_medium_witness :
    lassq (⟨1/4, 4, 4, 1/4, 1000⟩ : BlueC ℝ) Real.sqrt (fun a : ℝ => |a|) [4]
        (lassq (⟨1/4, 4, 4, 1/4, 1000⟩ : BlueC ℝ) Real.sqrt
          (fun a : ℝ => |a|) [3] 1 0).1
        (lassq (⟨1/4, 4, 4, 1/4, 1000⟩ : BlueC ℝ) Real.sqrt
          (fun a : ℝ => |a|) [3] 1 0).2 =
      lassq (⟨1/4, 4, 4, 1/4, 1000⟩ : BlueC ℝ) Real.sqrt (fun a : ℝ => |a|)
        ([3] ++ [4]) 1 0 := by
  have hmem : ∀ t ∈ ([3] : List ℝ) ++ [4], (fun a : ℝ => |a|) t = 0 ∨
      ((⟨1/4, 4, 4, 1/4, 1000⟩ : BlueC ℝ).tsml ≤ (fun a : ℝ => |a|) t ∧
        (fun a : ℝ => |a|) t ≤ (⟨1/4, 4, 4, 1/4, 1000⟩ : BlueC ℝ).tbig) := by
    intro t ht
    rcases List.mem_pair.mp ht with h | h <;> subst h
    · right
      constructor
      · show (1/4 : ℝ) ≤ |(3:ℝ)|
        rw [abs_of_nonneg (by norm_num : (0:ℝ) ≤ 3)]; norm_num
      · show |(3:ℝ)| ≤ (4:ℝ)
        rw [abs_of_nonneg (by norm_num : (0:ℝ) ≤ 3)]; norm_num
    · right
      constructor
      · show (1/4 : ℝ) ≤ |(4:ℝ)|
        rw [abs_of_nonneg (by norm_num : (0:ℝ) ≤ 4)]; norm_num
      · show |(4:ℝ)| ≤ (4:ℝ)
        rw [abs_of_nonneg (by norm_num : (0:ℝ) ≤ 4)]
  have hsum9 : (1:ℝ) * 1 * 0 +
      ((([3] : List ℝ).map fun a : ℝ => |a|).map fun a => a * a).sum = 9 := by
    simp only [List.map_cons, List.map_nil, List.sum_cons, List.sum_nil,
      abs_of_nonneg (by norm_num : (0:ℝ) ≤ 3)]
    norm_num
  exact lassq_chunk_medium (⟨1/4, 4, 4, 1/4, 1000⟩ : BlueC ℝ) Real.sqrt
    (fun a : ℝ => |a|) [3] [4] 1 0 (by norm_num) (by norm_num) (by norm_num)
    (by simp) (by simp)
    (fun t ht => hmem t (List.mem_append.mpr (Or.inl ht)))
    (fun t ht => hmem t (List.mem_append.mpr (Or.inr ht)))
    (Or.inl rfl)
    (by
      right
      rw [hsum9]
      rw [sqrt_spec_eq Real.sqrt (fun a ha => Real.mul_self_sqrt ha)
        (fun a _ => Real.sqrt_nonneg a) 9 3 (by norm_num) (by norm_num)]
      constructor
      · show (1/4 : ℝ) ≤ 3; norm_num
      · show (3 : ℝ) ≤ 4; norm_num)

/-! ### Claim C1: the exact value of a `lassq` call -/

section ValueLemmas

variable {R : Type} [LinearOrderedField R] {T : Type}

/-- The sum of squares of a list of magnitudes. -/
def sqSum (l : List R) : R := (l.map fun a => a * a).sum

/-- The loop's contribution to the big accumulator: (rescaled) squares of
the magnitudes classified above `tbig`. -/
def bigSum (c : BlueC R) (l : List R) : R :=
  ((l.filter fun a => decide (c.tbig < a)).map
    fun a => (a * c.sbig) * (a * c.sbig)).sum

/-- The loop's contribution to the medium accumulator. -/
def medSum (c : BlueC R) (l : List R) : R :=
  ((l.filter fun a => decide (¬ c.tbig < a ∧ ¬ a < c.tsml)).map
    fun a => a * a).sum

/-- The loop's contribution to the small accumulator when no big value
occurs: (rescaled) squares of the magnitudes classified below `tsml`. -/
def smlSum (c : BlueC R) (l : List R) : R :=
  ((l.filter fun a => decide (¬ c.tbig < a ∧ a < c.tsml)).map
    fun a => (a * c.ssml) * (a * c.ssml)).sum

/-- The raw squares of the magnitudes classified above `tbig`. -/
def bigSqSum (c : BlueC R) (l : List R) : R :=
  ((l.filter fun a => decide (c.tbig < a)).map fun a => a * a).sum

/-- The raw squares of the magnitudes strictly below `tsml`. -/
def smlSqSum (c : BlueC R) (l : List R) : R :=
  ((l.filter fun a => decide (a < c.tsml)).map fun a => a * a).sum

/-- The big accumulator at the merge point of `lassq`: the loop's big bucket
plus the fold's big contribution, all computed from the normalized incoming
state. -/
def abigOf (c : BlueC R) (sqrt : R → R) (absF : T → R) (x : List T)
    (scl sumsq : R) : R :=
  (foldState c sqrt (normState scl sumsq).1 (normState scl sumsq).2
    (lassqLoop c absF x (0, 0, 0))).2.2

/-- The total square mass classified below `tsml` in a `lassq` call: the
squares of the small element magnitudes plus, when the folded incoming value
itself classifies small, that value.  This is exactly what the algorithm
drops when the big accumulator is occupied. -/
def droppedMass (c : BlueC R) (sqrt : R → R) (absF : T → R) (x : List T)
    (scl sumsq : R) : R :=
  smlSqSum c (x.map absF) +
    (if 0 < (normState scl sumsq).2 ∧
        (normState scl sumsq).1 * sqrt (normState scl sumsq).2 < c.tsml
      then ((normState scl sumsq).1 * (normState scl sumsq).1) *
        (normState scl sumsq).2
      else 0)

/-- Sums of squares are nonnegative. -/
theorem sq_list_sum_nonneg (l : List R) : 0 ≤ (l.map fun a => a * a).sum :=
  List.sum_nonneg fun a ha => by
    obtain ⟨b, _, rfl⟩ := List.mem_map.mp ha
    exact mul_self_nonneg b

/-- `bigSum` is nonnegative. -/
theorem bigSum_nonneg (c : BlueC R) (l : List R) : 0 ≤ bigSum c l :=
  List.sum_nonneg fun a ha => by
    obtain ⟨b, _, rfl⟩ := List.mem_map.mp ha
    exact mul_self_nonneg _

/-- `medSum` is nonnegative. -/
theorem medSum_nonneg (c : BlueC R) (l : List R) : 0 ≤ medSum c l :=
  sq_list_sum_nonneg _

/-- `smlSum` is nonnegative. -/
theorem smlSum_nonneg (c : BlueC R) (l : List R) : 0 ≤ smlSum c l :=
  List.sum_nonneg fun a ha => by
    obtain ⟨b, _, rfl⟩ := List.mem_map.mp ha
    exact mul_self_nonneg _

/-- The big bucket stores `sbig²` times the raw squares of the big
magnitudes. -/
theorem bigSum_eq (c : BlueC R) (l : List R) :
    bigSum c l = (c.sbig * c.sbig) * bigSqSum c l := by
  rw [bigSum, bigSqSum]
  induction l.filter fun a => decide (c.tbig < a) with
  | nil => simp
  | cons a l ih =>
    simp only [List.map_cons, List.sum_cons, ih]
    ring

/-- The small bucket stores `ssml²` times the raw squares of the small
magnitudes (when `tsml ≤ tbig`, so that a big magnitude is never small). -/
theorem smlSum_eq (c : BlueC R) (l : List R) (htb : c.tsml ≤ c.tbig) :
    smlSum c l = (c.ssml * c.ssml) * smlSqSum c l := by
  rw [smlSum, smlSqSum]
  have hfe : (l.filter fun a => decide (¬ c.tbig < a ∧ a < c.tsml)) =
      l.filter fun a => decide (a < c.tsml) := by
    apply List.filter_congr
    intro a _
    rcases lt_or_le a c.tsml with h | h
    · simp [h, not_lt.mpr (le_trans (le_of_lt h) htb)]
    · simp [not_lt.mpr h]
  rw [hfe]
  induction l.filter fun a => decide (a < c.tsml) with
  | nil => simp
  | cons a l ih =>
    simp only [List.map_cons, List.sum_cons, ih]
    ring

/-- Unfolding `bigSum` over a cons cell. -/
theorem bigSum_cons (c : BlueC R) (a : R) (l : List R) :
    bigSum c (a :: l) =
      (if c.tbig < a then (a * c.sbig) * (a * c.sbig) else 0) + bigSum c l := by
  by_cases h : c.tbig < a <;> simp [bigSum, List.filter_cons, h]

/-- Unfolding `medSum` over a cons cell. -/
theorem medSum_cons (c : BlueC R) (a : R) (l : List R) :
    medSum c (a :: l) =
      (if ¬ c.tbig < a ∧ ¬ a < c.tsml then a * a else 0) + medSum c l := by
  by_cases h : ¬ c.tbig < a ∧ ¬ a < c.tsml
  · simp [medSum, List.filter_cons, h, not_lt.mp h.1, not_lt.mp h.2]
  · have h' : ¬ (a ≤ c.tbig ∧ c.tsml ≤ a) := fun hc =>
      h ⟨not_lt.mpr hc.1, not_lt.mpr hc.2⟩
    simp [medSum, List.filter_cons, h, h']

/-- Unfolding `smlSum` over a cons cell. -/
theorem smlSum_cons (c : BlueC R) (a : R) (l : List R) :
    smlSum c (a :: l) =
      (if ¬ c.tbig < a ∧ a < c.tsml then (a * c.ssml) * (a * c.ssml) else 0) +
        smlSum c l := by
  by_cases h : ¬ c.tbig < a ∧ a < c.tsml
  · simp [smlSum, List.filter_cons, h, not_lt.mp h.1, h.2]
  · have h' : ¬ (a ≤ c.tbig ∧ a < c.tsml) := fun hc =>
      h ⟨not_lt.mpr hc.1, hc.2⟩
    simp [smlSum, List.filter_cons, h, h']

/-- Unfolding `bigSqSum` over a cons cell. -/
theorem bigSqSum_cons (c : BlueC R) (a : R) (l : List R) :
    bigSqSum c (a :: l) =
      (if c.tbig < a then a * a else 0) + bigSqSum c l := by
  by_cases h : c.tbig < a <;> simp [bigSqSum, List.filter_cons, h]

/-- Unfolding `smlSqSum` over a cons cell. -/
theorem smlSqSum_cons (c : BlueC R) (a : R) (l : List R) :
    smlSqSum c (a :: l) =
      (if a < c.tsml then a * a else 0) + smlSqSum c l := by
  by_cases h : a < c.tsml <;> simp [smlSqSum, List.filter_cons, h]

/-- Partition of the total square mass into the three classification
buckets (using that `tsml ≤ tbig`). -/
theorem sqSum_partition (c : BlueC R) (l : List R) (htb : c.tsml ≤ c.tbig) :
    sqSum l = bigSqSum c l + medSum c l + smlSqSum c l := by
  induction l with
  | nil => simp [sqSum, bigSqSum, medSum, smlSqSum]
  | cons a l ih =>
    rw [sqSum, List.map_cons, List.sum_cons, ← sqSum, ih,
      bigSqSum_cons, medSum_cons, smlSqSum_cons]
    by_cases h1 : c.tbig < a
    · have h2 : ¬ a < c.tsml := not_lt.mpr (le_trans htb (le_of_lt h1))
      rw [if_pos h1, if_neg (by tauto), if_neg h2]
      ring
    · by_cases h2 : a < c.tsml
      · rw [if_neg h1, if_neg (by tauto), if_pos h2]
        ring
      · rw [if_neg h1, if_pos ⟨h1, h2⟩, if_neg h2]
        ring

/-- The big and medium accumulators of the loop are exactly the starting
values plus the corresponding classified sums — regardless of the
small-bucket dropping. -/
theorem lassqLoop_big_med (c : BlueC R) (absF : T → R) :
    ∀ (xs : List T) (s m b : R),
      (lassqLoop c absF xs (s, m, b)).2.2 = b + bigSum c (xs.map absF) ∧
      (lassqLoop c absF xs (s, m, b)).2.1 = m + medSum c (xs.map absF) := by
  intro xs
  induction xs with
  | nil => intro s m b; simp [lassqLoop, bigSum, medSum]
  | cons t ts ih =>
    intro s m b
    rw [List.map_cons, bigSum_cons, medSum_cons]
    simp only [lassqLoop]
    by_cases h1 : c.tbig < absF t
    · rw [if_pos h1]
      constructor
      · rw [(ih s m (b + (absF t * c.sbig) * (absF t * c.sbig))).1, if_pos h1]
        ring
      · rw [(ih s m (b + (absF t * c.sbig) * (absF t * c.sbig))).2,
          if_neg (by tauto)]
        ring
    · rw [if_neg h1]
      by_cases h2 : absF t < c.tsml
      · rw [if_pos h2]
        by_cases h3 : b = 0
        · rw [if_pos h3]
          constructor
          · rw [(ih (s + (absF t * c.ssml) * (absF t * c.ssml)) m b).1,
              if_neg h1]
            ring
          · rw [(ih (s + (absF t * c.ssml) * (absF t * c.ssml)) m b).2,
              if_neg (by tauto)]
            ring
        · rw [if_neg h3]
          constructor
          · rw [(ih s m b).1, if_neg h1]
            ring
          · rw [(ih s m b).2, if_neg (by tauto)]
            ring
      · rw [if_neg h2]
        constructor
        · rw [(ih s (m + absF t * absF t) b).1, if_neg h1]
          ring
        · rw [(ih s (m + absF t * absF t) b).2, if_pos ⟨h1, h2⟩]
          ring

/-- The small accumulator of the loop never decreases below a nonnegative
start. -/
theorem lassqLoop_fst_nonneg (c : BlueC R) (absF : T → R) :
    ∀ (xs : List T) (s m b : R), 0 ≤ s →
      0 ≤ (lassqLoop c absF xs (s, m, b)).1 := by
  intro xs
  induction xs with
  | nil => intro s m b hs; exact hs
  | cons t ts ih =>
    intro s m b hs
    simp only [lassqLoop]
    split_ifs
    · exact ih _ _ _ hs
    · exact ih _ _ _ (by
        have := mul_self_nonneg (absF t * c.ssml)
        linarith)
    · exact ih _ _ _ hs
    · exact ih _ _ _ hs

/-- When no magnitude classifies big (the big bucket stays zero throughout),
no small value is dropped: the small accumulator collects exactly the
rescaled small squares. -/
theorem lassqLoop_sml (c : BlueC R) (absF : T → R)
    (hsb : 0 < c.sbig) (h0tb : 0 ≤ c.tbig) :
    ∀ (xs : List T) (s m : R), bigSum c (xs.map absF) = 0 →
      (lassqLoop c absF xs (s, m, 0)).1 = s + smlSum c (xs.map absF) := by
  intro xs
  induction xs with
  | nil => intro s m _; simp [lassqLoop, smlSum]
  | cons t ts ih =>
    intro s m hbig
    rw [List.map_cons, bigSum_cons] at hbig
    have h1 : ¬ c.tbig < absF t := by
      intro h1
      rw [if_pos h1] at hbig
      have ha : 0 < absF t := lt_of_le_of_lt h0tb h1
      have hq : 0 < (absF t * c.sbig) * (absF t * c.sbig) := by positivity
      have := bigSum_nonneg c (ts.map absF)
      linarith
    rw [if_neg h1, zero_add] at hbig
    rw [List.map_cons, smlSum_cons]
    simp only [lassqLoop]
    rw [if_neg h1]
    by_cases h2 : absF t < c.tsml
    · rw [if_pos h2]
      simp only [if_true]
      rw [ih _ _ hbig, if_pos ⟨h1, h2⟩]
      ring
    · rw [if_neg h2, ih _ _ hbig, if_neg (by tauto)]
      ring

/-- The represented value `scl² · sumsq` reported by the merge:
`abig/sbig² + amed` when the big bucket is occupied, `amed + asml/ssml²`
otherwise. -/
theorem mergeState_value (c : BlueC R) (sqrt : R → R)
    (hsq : ∀ a : R, 0 ≤ a → sqrt a * sqrt a = a)
    (hsqn : ∀ a : R, 0 ≤ a → 0 ≤ sqrt a)
    (hsb : c.sbig ≠ 0) (hss : c.ssml ≠ 0)
    (asml amed abig : R) (hs : 0 ≤ asml) (hm : 0 ≤ amed) :
    (mergeState c sqrt (asml, amed, abig)).1 *
        (mergeState c sqrt (asml, amed, abig)).1 *
        (mergeState c sqrt (asml, amed, abig)).2 =
      if 0 < abig then abig / (c.sbig * c.sbig) + amed
      else amed + asml / (c.ssml * c.ssml) := by
  rw [mergeState]
  simp only
  by_cases h1 : 0 < abig
  · rw [if_pos h1, if_pos h1]
    by_cases h2 : 0 < amed
    · rw [if_pos h2]
      field_simp
      ring
    · rw [if_neg h2]
      have hm0 : amed = 0 := le_antisymm (not_lt.mp h2) hm
      rw [hm0]
      field_simp
  · rw [if_neg h1, if_neg h1]
    by_cases h2 : 0 < asml
    · rw [if_pos h2]
      by_cases h3 : 0 < amed
      · rw [if_pos h3]
        have hsa : 0 < sqrt amed := by
          rcases (hsqn amed hm).lt_or_eq with h | h
          · exact h
          · exfalso
            have h4 := hsq amed hm
            rw [← h, mul_zero] at h4
            exact absurd h4.symm (ne_of_gt h3)
        have hcomb : ∀ u v : R, 0 < u →
            ((if u < v then v else u) * (if u < v then v else u)) *
              (1 + ((if u < v then u else v) / (if u < v then v else u)) *
                ((if u < v then u else v) / (if u < v then v else u))) =
              u * u + v * v := by
          intro u v hu
          by_cases huv : u < v
          · have hv : v ≠ 0 := ne_of_gt (lt_trans hu huv)
            simp only [if_pos huv]
            field_simp
            ring
          · have hu0 : u ≠ 0 := ne_of_gt hu
            simp only [if_neg huv]
            field_simp
            try ring
        rw [one_mul, one_mul, hcomb (sqrt amed) (sqrt asml / c.ssml) hsa]
        rw [hsq amed hm]
        rw [div_mul_div_comm, hsq asml hs]
        try ring
      · rw [if_neg h3]
        have hm0 : amed = 0 := le_antisymm (not_lt.mp h3) hm
        rw [hm0]
        field_simp
      -- end of 0 < asml case
    · rw [if_neg h2]
      have hs0 : asml = 0 := le_antisymm (not_lt.mp h2) hs
      rw [hs0, one_mul, one_mul, zero_div, add_zero]

end ValueLemmas

/-- C1 (amended): for every vector of magnitudes and every well-formed
incoming state, the state returned by `lassq` satisfies, exactly in real
arithmetic and for every classification of the elements into the three
buckets, `scl'² · sumsq' = scl² · sumsq + Σ |xᵢ|² - D`, where the deficit
`D` is the total square mass classified below `tsml` (`droppedMass`) when
the big accumulator is occupied at the merge, and `D = 0` whenever the big
accumulator stays empty — in that case the claimed identity is exact.  (The
unamended claim omits the deficit; the counterexample shows it is not
always zero.) -/
theorem lassq_value {R : Type} [LinearOrderedField R] {T : Type}
    (c : BlueC R) (sqrt : R → R) (absF : T → R) (x : List T) (scl sumsq : R)
    (hsq : ∀ a : R, 0 ≤ a → sqrt a * sqrt a = a)
    (hsqn : ∀ a : R, 0 ≤ a → 0 ≤ sqrt a)
    (hsb : 0 < c.sbig) (hss : 0 < c.ssml)
    (hts : 0 < c.tsml) (htb : c.tsml ≤ c.tbig)
    (hscl : 0 ≤ scl) (hsum : 0 ≤ sumsq) :
    (lassq c sqrt absF x scl sumsq).1 * (lassq c sqrt absF x scl sumsq).1 *
        (lassq c sqrt absF x scl sumsq).2 =
      scl * scl * sumsq + sqSum (x.map absF) -
        (if 0 < abigOf c sqrt absF x scl sumsq
          then droppedMass c sqrt absF x scl sumsq else 0) := by
  have h0tb : 0 ≤ c.tbig := le_trans (le_of_lt hts) htb
  have hsbne : c.sbig ≠ 0 := ne_of_gt hsb
  have hssne : c.ssml ≠ 0 := ne_of_gt hss
  obtain ⟨scl1, s1, hnorm, hval, hscl1, hs1⟩ : ∃ scl1 s1,
      normState scl sumsq = (scl1, s1) ∧
      scl1 * scl1 * s1 = scl * scl * sumsq ∧ 0 ≤ scl1 ∧ 0 ≤ s1 := by
    by_cases h2 : sumsq = 0
    · exact ⟨1, 0, by simp [normState, h2], by rw [h2]; ring, by norm_num,
        le_refl 0⟩
    · by_cases h1 : scl = 0
      · exact ⟨1, 0, by simp [normState, h2, h1], by rw [h1]; ring,
          by norm_num, le_refl 0⟩
      · exact ⟨scl, sumsq, by simp [normState, h1, h2], rfl, hscl, hsum⟩
  rw [lassq, abigOf, droppedMass]
  rw [hnorm]
  simp only
  by_cases hxe : x.length = 0
  · -- Empty vector: the normalized state is returned unchanged, and the
    -- deficit term vanishes in every fold branch.
    rw [if_pos hxe]
    have hx0 : x = [] := List.length_eq_zero.mp hxe
    subst hx0
    simp only [List.map_nil, lassqLoop]
    rw [← hval]
    have hsq0 : sqSum ([] : List R) = 0 := rfl
    have hsml0 : smlSqSum c ([] : List R) = 0 := rfl
    rw [hsq0, hsml0]
    have hdrop : (if 0 < (foldState c sqrt scl1 s1
          ((0 : R), (0 : R), (0 : R))).2.2
        then (0 : R) + (if 0 < s1 ∧ scl1 * sqrt s1 < c.tsml
          then (scl1 * scl1) * s1 else 0) else 0) = 0 := by
      rw [foldState]
      simp only
      by_cases hs1p : 0 < s1
      · rw [if_pos hs1p]
        by_cases hbig : c.tbig < scl1 * sqrt s1
        · rw [if_pos hbig]
          have hsmall : ¬ scl1 * sqrt s1 < c.tsml :=
            not_lt.mpr (le_trans htb (le_of_lt hbig))
          rw [if_neg (fun h : 0 < s1 ∧ scl1 * sqrt s1 < c.tsml =>
            hsmall h.2)]
          split_ifs <;> norm_num
        · rw [if_neg hbig]
          by_cases hsmall : scl1 * sqrt s1 < c.tsml
          · rw [if_pos hsmall]
            split_ifs <;> simp_all
          · rw [if_neg hsmall,
              if_neg (fun h : 0 < s1 ∧ scl1 * sqrt s1 < c.tsml =>
                hsmall h.2)]
            split_ifs <;> norm_num
      · rw [if_neg hs1p,
          if_neg (fun h : 0 < s1 ∧ scl1 * sqrt s1 < c.tsml => hs1p h.1)]
        split_ifs <;> norm_num
    rw [hdrop]
    ring
  · rw [if_neg hxe]
    rcases hLeq : lassqLoop c absF x (0, 0, 0) with ⟨Ls, Lm, Lb⟩
    have hLb : Lb = bigSum c (x.map absF) := by
      have h := (lassqLoop_big_med c absF x 0 0 0).1
      rw [hLeq] at h
      simpa using h
    have hLm : Lm = medSum c (x.map absF) := by
      have h := (lassqLoop_big_med c absF x 0 0 0).2
      rw [hLeq] at h
      simpa using h
    have hLsnn : 0 ≤ Ls := by
      have h := lassqLoop_fst_nonneg c absF x 0 0 0 le_rfl
      rw [hLeq] at h
      exact h
    have hLs0 : Lb = 0 → Ls = smlSum c (x.map absF) := by
      intro h0
      have hb0 : bigSum c (x.map absF) = 0 := by rw [← hLb]; exact h0
      have h := lassqLoop_sml c absF hsb h0tb x 0 0 hb0
      rw [hLeq] at h
      simpa using h
    have hLbnn : 0 ≤ Lb := hLb ▸ bigSum_nonneg c (x.map absF)
    have hLmnn : 0 ≤ Lm := hLm ▸ medSum_nonneg c (x.map absF)
    have hpart := sqSum_partition c (x.map absF) htb
    have hbigz : Lb = 0 → bigSqSum c (x.map absF) = 0 := by
      intro h0
      have hbs : bigSum c (x.map absF) = 0 := by rw [← hLb]; exact h0
      rw [bigSum_eq] at hbs
      exact (mul_eq_zero.mp hbs).resolve_left (mul_ne_zero hsbne hsbne)
    rw [foldState]
    simp only
    by_cases hs1p : 0 < s1
    · rw [if_pos hs1p]
      by_cases hbig : c.tbig < scl1 * sqrt s1
      · -- The fold classifies big.
        rw [if_pos hbig]
        have hsmall : ¬ scl1 * sqrt s1 < c.tsml :=
          not_lt.mpr (le_trans htb (le_of_lt hbig))
        have hscl1ne : scl1 ≠ 0 := by
          intro h0
          rw [h0, zero_mul] at hbig
          linarith
        have habig : 0 < Lb + ((scl1 * c.sbig) * (scl1 * c.sbig)) * s1 := by
          have hne : scl1 * c.sbig ≠ 0 := mul_ne_zero hscl1ne hsbne
          have h2 : 0 < (scl1 * c.sbig) * (scl1 * c.sbig) :=
            lt_of_le_of_ne (mul_self_nonneg _) (Ne.symm (mul_ne_zero hne hne))
          have := mul_pos h2 hs1p
          linarith
        rw [if_pos habig,
          if_neg (fun h : 0 < s1 ∧ scl1 * sqrt s1 < c.tsml => hsmall h.2)]
        rw [mergeState_value c sqrt hsq hsqn hsbne hssne _ _ _ hLsnn hLmnn,
          if_pos habig]
        rw [hLb, hLm, bigSum_eq, ← hval, hpart]
        field_simp
        ring
      · rw [if_neg hbig]
        by_cases hsmall : scl1 * sqrt s1 < c.tsml
        · -- The fold classifies small.
          rw [if_pos hsmall]
          by_cases hLb0 : Lb = 0
          · rw [if_pos hLb0]
            rw [if_pos (⟨hs1p, hsmall⟩ : 0 < s1 ∧ scl1 * sqrt s1 < c.tsml)]
            have hnb : ¬ 0 < Lb := by rw [hLb0]; exact lt_irrefl 0
            rw [mergeState_value c sqrt hsq hsqn hsbne hssne _ _ _
              (by
                have h2 := mul_nonneg (mul_self_nonneg (scl1 * c.ssml)) hs1
                linarith) hLmnn,
              if_neg hnb, if_neg hnb]
            rw [hLs0 hLb0, hLm, smlSum_eq c _ htb, ← hval, hpart,
              hbigz hLb0]
            field_simp
            ring
          · have hbpos : 0 < Lb := lt_of_le_of_ne hLbnn (Ne.symm hLb0)
            rw [if_neg hLb0]
            rw [if_pos (⟨hs1p, hsmall⟩ : 0 < s1 ∧ scl1 * sqrt s1 < c.tsml)]
            rw [mergeState_value c sqrt hsq hsqn hsbne hssne _ _ _ hLsnn
              hLmnn, if_pos hbpos, if_pos hbpos]
            rw [hLb, hLm, bigSum_eq, ← hval, hpart]
            field_simp
            ring
        · -- The fold classifies medium.
          rw [if_neg hsmall,
            if_neg (fun h : 0 < s1 ∧ scl1 * sqrt s1 < c.tsml => hsmall h.2)]
          have hmednn : 0 ≤ Lm + (scl1 * scl1) * s1 := by
            have h2 := mul_nonneg (mul_self_nonneg scl1) hs1
            linarith
          by_cases hb : 0 < Lb
          · rw [mergeState_value c sqrt hsq hsqn hsbne hssne _ _ _ hLsnn
              hmednn, if_pos hb, if_pos hb]
            rw [hLb, hLm, bigSum_eq, ← hval, hpart]
            field_simp
            ring
          · have hLb0 : Lb = 0 := le_antisymm (not_lt.mp hb) hLbnn
            rw [mergeState_value c sqrt hsq hsqn hsbne hssne _ _ _ hLsnn
              hmednn, if_neg hb, if_neg hb]
            rw [hLs0 hLb0, hLm, smlSum_eq c _ htb, ← hval, hpart,
              hbigz hLb0]
            field_simp
            ring
    · -- The fold is skipped: the incoming value is zero.
      rw [if_neg hs1p,
        if_neg (fun h : 0 < s1 ∧ scl1 * sqrt s1 < c.tsml => hs1p h.1)]
      have hs10 : s1 = 0 := le_antisymm (not_lt.mp hs1p) hs1
      rw [mergeState_value c sqrt hsq hsqn hsbne hssne _ _ _ hLsnn hLmnn]
      by_cases hb : 0 < Lb
      · rw [if_pos hb, if_pos hb]
        rw [hLb, hLm, bigSum_eq, ← hval, hs10, hpart]
        field_simp
        try ring
      · have hLb0 : Lb = 0 := le_antisymm (not_lt.mp hb) hLbnn
        rw [if_neg hb, if_neg hb]
        rw [hLs0 hLb0, hLm, smlSum_eq c _ htb, ← hval, hs10, hpart,
          hbigz hLb0]
        field_simp
        try ring

/-- Unfolding of the element loop on a cons cell (definitional). -/
theorem lassqLoop_cons {R : Type} [LinearOrderedField R] {T : Type}
    (c : BlueC R) (absF : T → R) (t : T) (ts : List T) (s m b : R) :
    lassqLoop c absF (t :: ts) (s, m, b) =
      if c.tbig < absF t then
        lassqLoop c absF ts (s, m, b + (absF t * c.sbig) * (absF t * c.sbig))
      else if absF t < c.tsml then
        (if b = 0 then
          lassqLoop c absF ts (s + (absF t * c.ssml) * (absF t * c.ssml), m, b)
        else lassqLoop c absF ts (s, m, b))
      else lassqLoop c absF ts (s, m + absF t * absF t, b) := rfl

/-- Unfolding of the element loop on the empty list (definitional). -/
theorem lassqLoop_nil {R : Type} [LinearOrderedField R] {T : Type}
    (c : BlueC R) (absF : T → R) (acc : R × R × R) :
    lassqLoop c absF [] acc = acc := rfl

/-- Evaluation of `lassq` on `[8, 1/8]` from `(1, 0)` for any constants with
`tsml = 1/4`, `tbig = 4`, `ssml = 4`, `sbig = 1/4`: the magnitude 8
classifies big, so the magnitude 1/8 (classified small) is dropped, and the
merge reports `(4, 4)` — representing 64, not 64 + 1/64. -/
theorem lassq_value_eval (c : BlueC ℝ) (h1 : c.tsml = 1/4) (h2 : c.tbig = 4)
    (h3 : c.ssml = 4) (h4 : c.sbig = 1/4) :
    lassq c Real.sqrt (fun a : ℝ => |a|) [8, 1/8] 1 0 = (4, 4) := by
  rw [lassq, if_neg (by norm_num : ¬([8, 1/8] : List ℝ).length = 0)]
  have hnorm : normState (1 : ℝ) 0 = (1, 0) := by norm_num [normState]
  rw [hnorm]
  rw [show ((1:ℝ), (0:ℝ)).1 = 1 from rfl, show ((1:ℝ), (0:ℝ)).2 = 0 from rfl]
  have hloop : lassqLoop c (fun a : ℝ => |a|) [8, 1/8] ((0:ℝ), 0, 0) =
      (0, 0, 4) := by
    rw [lassqLoop_cons]
    rw [if_pos (show c.tbig < (fun a : ℝ => |a|) 8 by rw [h2]; norm_num)]
    rw [lassqLoop_cons]
    rw [if_neg (show ¬ c.tbig < (fun a : ℝ => |a|) (1/8) by
        rw [h2]
        show ¬ (4:ℝ) < |(1/8:ℝ)|
        rw [abs_of_nonneg (by norm_num : (0:ℝ) ≤ 1/8)]
        norm_num),
      if_pos (show (fun a : ℝ => |a|) (1/8) < c.tsml by
        rw [h1]
        show |(1/8:ℝ)| < (1/4 : ℝ)
        rw [abs_of_nonneg (by norm_num : (0:ℝ) ≤ 1/8)]
        norm_num),
      if_neg (show ¬ ((0:ℝ) + ((fun a : ℝ => |a|) 8 * c.sbig) *
          ((fun a : ℝ => |a|) 8 * c.sbig)) = 0 by rw [h4]; norm_num)]
    rw [lassqLoop_nil, Prod.mk.injEq, Prod.mk.injEq]
    refine ⟨rfl, rfl, ?_⟩
    rw [h4]
    norm_num
  rw [hloop]
  have hfold : foldState c Real.sqrt 1 0 ((0:ℝ), (0:ℝ), (4:ℝ)) =
      (0, 0, 4) := by
    rw [foldState]
    simp only
    rw [if_neg (by norm_num : ¬ (0:ℝ) < 0)]
  rw [hfold]
  rw [mergeState]
  simp only
  rw [if_pos (by norm_num : (0:ℝ) < 4), if_neg (by norm_num : ¬ (0:ℝ) < 0)]
  rw [Prod.mk.injEq]
  constructor
  · rw [h4]; norm_num
  · rfl

/-- Counterexample to C1 as stated: accumulating `[8, 1/8]` from the
well-formed state `(1, 0)` with thresholds `tsml = 1/4`, `tbig = 4` puts 8
in the big bucket and drops 1/8 entirely, so the exact-arithmetic identity
`scl'² · sumsq' = scl² · sumsq + Σ |xᵢ|²` fails: the left side is 64, the
right side is 64 + 1/64. -/
theorem lassq_value_counterexample :
    (lassq (⟨1/4, 4, 4, 1/4, 1000⟩ : BlueC ℝ) Real.sqrt (fun a : ℝ => |a|)
          [8, 1/8] 1 0).1 *
        (lassq (⟨1/4, 4, 4, 1/4, 1000⟩ : BlueC ℝ) Real.sqrt (fun a : ℝ => |a|)
          [8, 1/8] 1 0).1 *
        (lassq (⟨1/4, 4, 4, 1/4, 1000⟩ : BlueC ℝ) Real.sqrt (fun a : ℝ => |a|)
          [8, 1/8] 1 0).2 ≠
      1 * 1 * 0 + sqSum (([8, 1/8] : List ℝ).map fun a : ℝ => |a|) := by
  rw [lassq_value_eval (⟨1/4, 4, 4, 1/4, 1000⟩ : BlueC ℝ) rfl rfl rfl rfl]
  have h8 : |(8:ℝ)| = 8 := abs_of_nonneg (by norm_num)
  have h18 : |(1/8:ℝ)| = 1/8 := abs_of_nonneg (by norm_num)
  rw [show sqSum (([8, 1/8] : List ℝ).map fun a : ℝ => |a|) =
      |(8:ℝ)| * |(8:ℝ)| + (|(1/8:ℝ)| * |(1/8:ℝ)| + 0) from rfl, h8, h18]
  norm_num

/-- Witness for `lassq_value` at the concrete medium-regime input `[3, 4]`
from `(1, 0)` over ℝ with `Real.sqrt`. -/
theorem lassq_value_witness :
    (lassq (⟨1/4, 4, 4, 1/4, 1000⟩ : BlueC ℝ) Real.sqrt (fun a : ℝ => |a|)
          [3, 4] 1 0).1 *
        (lassq (⟨1/4, 4, 4, 1/4, 1000⟩ : BlueC ℝ) Real.sqrt (fun a : ℝ => |a|)
          [3, 4] 1 0).1 *
        (lassq (⟨1/4, 4, 4, 1/4, 1000⟩ : BlueC ℝ) Real.sqrt (fun a : ℝ => |a|)
          [3, 4] 1 0).2 =
      1 * 1 * 0 + sqSum (([3, 4] : List ℝ).map fun a : ℝ => |a|) -
        (if 0 < abigOf (⟨1/4, 4, 4, 1/4, 1000⟩ : BlueC ℝ) Real.sqrt
            (fun a : ℝ => |a|) [3, 4] 1 0
          then droppedMass (⟨1/4, 4, 4, 1/4, 1000⟩ : BlueC ℝ) Real.sqrt
            (fun a : ℝ => |a|) [3, 4] 1 0
          else 0) :=
  lassq_value (⟨1/4, 4, 4, 1/4, 1000⟩ : BlueC ℝ) Real.sqrt
    (fun a : ℝ => |a|) [3, 4] 1 0 (fun a ha => Real.mul_self_sqrt ha)
    (fun a _ => Real.sqrt_nonneg a) (by norm_num) (by norm_num)
    (by norm_num) (by norm_num) (by norm_num) (by norm_num)

end Tlapack
